import Mathlib

/-!
Verification of the authzgen schema compiler (lexer, parser, semantic
extractor, code generator) from `pkg/authzgen/lexer.go`,
`pkg/authzgen/parser.go` and the generator in `internal/shared/validation.go`.

The Go code is shallowly embedded: the lexer's byte cursor pair
`(position, readPosition)` over the input string is represented by the
current character `ch` together with the not-yet-read remainder `rest`
(so `readChar` takes the head of `rest`); every loop of the source is a
fueled structural recursion whose fuel is instantiated, at the single
call site the source has, with a bound computed from the state that is
large enough for the loop to run to its guard-directed completion.
Machine integers are modelled as `Nat` where the Go code keeps them
non-negative (`line`, `linePosition`) and as `Int` where subtraction can
go below zero (the recorded token `position`).
-/

namespace Authzgen

/-- Token kinds, one constructor per Go `TokenType` constant. -/
inductive TokenType where
  | ILLEGAL
  | EOF
  | IDENTIFIER
  | DEFINITION
  | RELATION
  | PERMISSION
  | EQUAL
  | PLUS
  | MINUS
  | PIPE
  | WILDCARD
  | LBRACE
  | RBRACE
  | COLON
  | SLASH
  | HASH
  | MINUS_ARROW
deriving DecidableEq, Repr

/-- `Token` from lexer.go.  Go declares `Line` and `Position` as `int`;
`Position` is computed by a subtraction that can go negative, so it is
embedded as `Int`, while `Line` only ever grows from 1. -/
structure Token where
  type : TokenType
  literal : String
  line : Nat
  position : Int
deriving DecidableEq, Repr

/-- The zero byte the Go lexer uses as its end-of-input sentinel. -/
def nulChar : Char := Char.ofNat 0

/-- Lexer state.  `ch` is the current character (`0` when past the end of
input) and `rest` is the input after `ch`; together they stand for the Go
fields `input`/`position`/`readPosition`. -/
structure Lexer where
  ch : Char
  rest : List Char
  line : Nat
  linePosition : Nat
deriving DecidableEq, Repr

/-- `Lexer.readChar`: advance the cursor one character, tracking the line
and the in-line position exactly as the Go code does (the in-line counter
resets to 0 on a newline and is incremented on every other character,
including the sentinel read past the end of input). -/
def readChar (l : Lexer) : Lexer :=
  let c := match l.rest with
    | [] => nulChar
    | c :: _ => c
  let r := match l.rest with
    | [] => []
    | _ :: r => r
  if c = '\n' then
    { ch := c, rest := r, line := l.line + 1, linePosition := 0 }
  else
    { ch := c, rest := r, line := l.line, linePosition := l.linePosition + 1 }

/-- `NewLexer`: start at line 1, column counter 0, and read the first
character. -/
def newLexer (input : String) : Lexer :=
  readChar { ch := nulChar, rest := input.toList, line := 1, linePosition := 0 }

/-- `Lexer.peekChar`. -/
def peekChar (l : Lexer) : Char :=
  match l.rest with
  | [] => nulChar
  | c :: _ => c

/-- `isLetter` from lexer.go. -/
def isLetter (c : Char) : Bool :=
  ('a' ≤ c && c ≤ 'z') || ('A' ≤ c && c ≤ 'Z')

/-- `isDigit` from lexer.go. -/
def isDigit (c : Char) : Bool :=
  '0' ≤ c && c ≤ '9'

/-- The character class consumed by `readIdentifier`'s loop. -/
def isIdentChar (c : Char) : Bool :=
  isLetter c || isDigit c || c = '_'

/-- The character class skipped by `skipWhitespace`. -/
def isWhitespaceChar (c : Char) : Bool :=
  c = ' ' || c = '\t' || c = '\n' || c = '\r'

/-- Termination measure for the lexer loops: strictly decreased by every
`readChar` except at the very end of the input (where `ch` is already the
sentinel and `rest` is empty). -/
def measureOf (l : Lexer) : Nat :=
  2 * l.rest.length + (if l.ch = nulChar then 0 else 1)

/-- Fueled body of `Lexer.skipWhitespace`. -/
def skipWhitespaceF : Nat → Lexer → Lexer
  | 0, l => l
  | fuel + 1, l =>
    if isWhitespaceChar l.ch then skipWhitespaceF fuel (readChar l) else l

/-- `Lexer.skipWhitespace`; the fuel bound always suffices because the
loop stops at the `0` sentinel. -/
def skipWhitespace (l : Lexer) : Lexer :=
  skipWhitespaceF (measureOf l + 1) l

/-- Fueled body of the loop inside `Lexer.skipComment`. -/
def skipCommentLoopF : Nat → Lexer → Lexer
  | 0, l => l
  | fuel + 1, l =>
    if l.ch ≠ '\n' ∧ l.ch ≠ nulChar then skipCommentLoopF fuel (readChar l) else l

/-- `Lexer.skipComment`: only acts when positioned at `//`. -/
def skipComment (l : Lexer) : Lexer :=
  if l.ch = '/' ∧ peekChar l = '/' then skipCommentLoopF (measureOf l + 1) l else l

/-- Fueled body of the comment-skipping loop at the top of
`Lexer.NextToken` (`for { if ch=='/'&&peek=='/' { skipComment;
skipWhitespace; continue }; break }`). -/
def skipCommentsF : Nat → Lexer → Lexer
  | 0, l => l
  | fuel + 1, l =>
    if l.ch = '/' ∧ peekChar l = '/' then
      skipCommentsF fuel (skipWhitespace (skipComment l))
    else l

/-- The comment-skipping loop at the top of `Lexer.NextToken`. -/
def skipComments (l : Lexer) : Lexer :=
  skipCommentsF (measureOf l + 1) l

/-- Fueled body of `Lexer.readIdentifier`, accumulating the consumed
characters (the Go code slices the input between the saved start position
and the final position, which yields the same character list). -/
def readIdentifierLoopF : Nat → Lexer → List Char → List Char × Lexer
  | 0, l, acc => (acc.reverse, l)
  | fuel + 1, l, acc =>
    if isIdentChar l.ch then readIdentifierLoopF fuel (readChar l) (l.ch :: acc)
    else (acc.reverse, l)

/-- `Lexer.readIdentifier`. -/
def readIdentifier (l : Lexer) : String × Lexer :=
  let (cs, l') := readIdentifierLoopF (measureOf l + 1) l []
  (String.mk cs, l')

/-- `lookupIdent` from lexer.go: reclassify the three keywords. -/
def lookupIdent (ident : String) : TokenType :=
  if ident = "definition" then .DEFINITION
  else if ident = "relation" then .RELATION
  else if ident = "permission" then .PERMISSION
  else .IDENTIFIER

/-- Build the single-character token the Go switch cases produce. -/
def charToken (t : TokenType) (l : Lexer) : Token :=
  { type := t, literal := String.mk [l.ch], line := l.line,
    position := (l.linePosition : Int) }

/-- Fueled `Lexer.NextToken`.  The fuel only feeds the recursive call in
the `'/'` case, which is unreachable after `skipComments` (the Go code
keeps it as a second line of defence); all loops carry their own
state-derived fuel.  At fuel 0 an EOF-shaped token is returned. -/
def nextTokenF : Nat → Lexer → Token × Lexer
  | 0, l =>
    ({ type := .EOF, literal := "", line := l.line,
       position := (l.linePosition : Int) }, l)
  | fuel + 1, l₀ =>
    let l := skipComments (skipWhitespace l₀)
    if l.ch = '=' then (charToken .EQUAL l, readChar l)
    else if l.ch = '+' then (charToken .PLUS l, readChar l)
    else if l.ch = '|' then (charToken .PIPE l, readChar l)
    else if l.ch = '*' then (charToken .WILDCARD l, readChar l)
    else if l.ch = '{' then (charToken .LBRACE l, readChar l)
    else if l.ch = '}' then (charToken .RBRACE l, readChar l)
    else if l.ch = ':' then (charToken .COLON l, readChar l)
    else if l.ch = '/' then
      if peekChar l = '/' then nextTokenF fuel (skipWhitespace (skipComment l))
      else (charToken .SLASH l, readChar l)
    else if l.ch = '#' then (charToken .HASH l, readChar l)
    else if l.ch = '-' then
      if peekChar l = '>' then
        let l' := readChar l
        ({ type := .MINUS_ARROW, literal := String.mk [l.ch, l'.ch],
           line := l'.line, position := (l'.linePosition : Int) - 1 },
         readChar l')
      else (charToken .MINUS l, readChar l)
    else if l.ch = nulChar then
      ({ type := .EOF, literal := "", line := l.line,
         position := (l.linePosition : Int) }, readChar l)
    else if isLetter l.ch then
      let (lit, l') := readIdentifier l
      ({ type := lookupIdent lit, literal := lit, line := l'.line,
         position := (l'.linePosition : Int) - (lit.length : Int) }, l')
    else (charToken .ILLEGAL l, readChar l)

/-- `Lexer.NextToken`. -/
def nextToken (l : Lexer) : Token × Lexer :=
  nextTokenF (measureOf l + 1) l

/-- Fueled body of `Lexer.TokenizeAll`: collect tokens until (and
including) the first EOF token. -/
def tokenizeAllF : Nat → Lexer → List Token
  | 0, _ => []
  | fuel + 1, l =>
    let (tok, l') := nextToken l
    if tok.type = .EOF then [tok] else tok :: tokenizeAllF fuel l'

/-- `Lexer.TokenizeAll` composed with `NewLexer`: all tokens of an input
string. -/
def tokenizeAll (input : String) : List Token :=
  tokenizeAllF (measureOf (newLexer input) + 1) (newLexer input)

/-!  ## Parser (parser.go)

The AST interfaces `PermissionExpressionNode` / `RelationExpressionNode`
with their marker methods are embedded as closed sum types (the spec's §9
notes this is the faithful closed-variant reading of the Go interfaces).
Go's absent `Fragment` is the empty string, exactly as in the source.
The parser object's mutable `current` index over `tokens` is represented
by the not-yet-consumed suffix of the token list. -/

/-- `IdentifierNode` and `BinaryOpNode` from parser.go. -/
inductive PermissionExpressionNode where
  | identifier (value : String)
  | binaryOp (operator : String) (left right : PermissionExpressionNode)
deriving DecidableEq, Repr

/-- `SingleRelationNode` and `UnionRelationNode` from parser.go. -/
inductive RelationExpressionNode where
  | singleRelation (value : String) (fragment : String)
  | unionRelation (left right : RelationExpressionNode)
deriving DecidableEq, Repr

/-- The `String()` methods of `IdentifierNode` and `BinaryOpNode`. -/
def PermissionExpressionNode.toStr : PermissionExpressionNode → String
  | .identifier v => v
  | .binaryOp op l r => l.toStr ++ " " ++ op ++ " " ++ r.toStr

/-- The `String()` methods of `SingleRelationNode` and
`UnionRelationNode`. -/
def RelationExpressionNode.toStr : RelationExpressionNode → String
  | .singleRelation v f => if f ≠ "" then v ++ "#" ++ f else v
  | .unionRelation l r => l.toStr ++ " | " ++ r.toStr

/-- `ObjectType` from parser.go (`pfx` stands for the Go field named
after the prefixed form). -/
structure ObjectType where
  name : String
  pfx : String
deriving DecidableEq, Repr

/-- `RelationNode`. -/
structure RelationNode where
  name : String
  expression : RelationExpressionNode
deriving DecidableEq, Repr

/-- `PermissionNode`. -/
structure PermissionNode where
  name : String
  expression : PermissionExpressionNode
deriving DecidableEq, Repr

/-- `DefinitionNode`. -/
structure DefinitionNode where
  objectType : ObjectType
  relations : List RelationNode
  permissions : List PermissionNode
deriving DecidableEq, Repr

/-- Structured stand-in for the `fmt.Errorf` messages of parser.go:
each error keeps the context string, the expected kind and the offending
token (Go interpolates these into one message and wraps it on the way
up; the wrapping only adds text, so it is not modelled). -/
structure ParseError where
  context : String
  expected : TokenType
  got : Token
deriving DecidableEq, Repr

/-- The token `Parser.peek` fabricates past the end of the slice. -/
def defaultToken : Token :=
  { type := .EOF, literal := "", line := 0, position := 0 }

/-- `Parser.peek` on the unconsumed suffix. -/
def peekT (toks : List Token) : Token :=
  match toks with
  | [] => defaultToken
  | t :: _ => t

/-- The error-context switch inside `Parser.consume`. -/
def errorContext (expected : TokenType) (token : Token) : String :=
  if token.type = .EOF ∧ expected ≠ .EOF then "unexpected end of file"
  else if token.type = .ILLEGAL then "illegal character encountered"
  else if expected = .LBRACE ∧ token.type = .IDENTIFIER then
    "missing opening brace after object type definition"
  else if expected = .SLASH ∧ token.type = .IDENTIFIER then
    "missing slash in object type definition (expected format: prefix/name)"
  else if expected = .RBRACE then "missing closing brace to end definition block"
  else "token mismatch"

/-- `Parser.consume`: on a kind match return the token and advance,
otherwise a context-qualified error. -/
def consume (expected : TokenType) (toks : List Token) :
    Except ParseError (Token × List Token) :=
  let token := peekT toks
  if token.type = expected then .ok (token, toks.tail)
  else .error { context := errorContext expected token, expected := expected, got := token }

/-- Error used by the fueled loop bodies when fuel runs out; unreachable
for the fuel bounds the wrappers pass, since every iteration of every
parser loop consumes at least one token. -/
def fuelError : ParseError :=
  { context := "internal: loop fuel exhausted", expected := .EOF, got := defaultToken }

/-- `Parser.parseSingleRelation`: identifier, optional `/name`, optional
`#fragment`. -/
def parseSingleRelation (toks : List Token) :
    Except ParseError (RelationExpressionNode × List Token) :=
  match consume .IDENTIFIER toks with
  | .error e => .error e
  | .ok (identToken, t1) =>
    match
      (if (peekT t1).type = .SLASH then
        match consume .SLASH t1 with
        | .error e => .error e
        | .ok (_, t2) =>
          match consume .IDENTIFIER t2 with
          | .error e => .error e
          | .ok (nameToken, t3) =>
            .ok (identToken.literal ++ "/" ++ nameToken.literal, t3)
      else .ok (identToken.literal, t1) :
        Except ParseError (String × List Token)) with
    | .error e => .error e
    | .ok (relationType, t4) =>
      if (peekT t4).type = .HASH then
        match consume .HASH t4 with
        | .error e => .error e
        | .ok (_, t5) =>
          match consume .IDENTIFIER t5 with
          | .error e => .error e
          | .ok (fragmentToken, t6) =>
            .ok (.singleRelation relationType fragmentToken.literal, t6)
      else .ok (.singleRelation relationType "", t4)

/-- Fueled `|`-chain loop of `Parser.parseRelationExpression`. -/
def parseRelationExpressionLoopF :
    Nat → RelationExpressionNode → List Token →
    Except ParseError (RelationExpressionNode × List Token)
  | 0, _, _ => .error fuelError
  | fuel + 1, left, toks =>
    if (peekT toks).type = .PIPE then
      match consume .PIPE toks with
      | .error e => .error e
      | .ok (_, t1) =>
        match parseSingleRelation t1 with
        | .error e => .error e
        | .ok (right, t2) =>
          parseRelationExpressionLoopF fuel (.unionRelation left right) t2
    else .ok (left, toks)

/-- `Parser.parseRelationExpression`. -/
def parseRelationExpression (toks : List Token) :
    Except ParseError (RelationExpressionNode × List Token) :=
  match parseSingleRelation toks with
  | .error e => .error e
  | .ok (left, t1) => parseRelationExpressionLoopF (t1.length + 1) left t1

/-- `Parser.parseRelation`: `relation IDENT : relExpr`. -/
def parseRelation (toks : List Token) :
    Except ParseError (RelationNode × List Token) :=
  match consume .RELATION toks with
  | .error e => .error e
  | .ok (_, t1) =>
    match consume .IDENTIFIER t1 with
    | .error e => .error e
    | .ok (nameToken, t2) =>
      match consume .COLON t2 with
      | .error e => .error e
      | .ok (_, t3) =>
        match parseRelationExpression t3 with
        | .error e => .error e
        | .ok (expr, t4) =>
          .ok ({ name := nameToken.literal, expression := expr }, t4)

/-- Fueled `->`-chain loop of `Parser.parseIdentifierChain`. -/
def parseIdentifierChainLoopF :
    Nat → PermissionExpressionNode → List Token →
    Except ParseError (PermissionExpressionNode × List Token)
  | 0, _, _ => .error fuelError
  | fuel + 1, left, toks =>
    if (peekT toks).type = .MINUS_ARROW then
      match consume .MINUS_ARROW toks with
      | .error e => .error e
      | .ok (opToken, t1) =>
        match consume .IDENTIFIER t1 with
        | .error e => .error e
        | .ok (rightToken, t2) =>
          parseIdentifierChainLoopF fuel
            (.binaryOp opToken.literal left (.identifier rightToken.literal)) t2
    else .ok (left, toks)

/-- `Parser.parseIdentifierChain`. -/
def parseIdentifierChain (toks : List Token) :
    Except ParseError (PermissionExpressionNode × List Token) :=
  match consume .IDENTIFIER toks with
  | .error e => .error e
  | .ok (identToken, t1) =>
    parseIdentifierChainLoopF (t1.length + 1) (.identifier identToken.literal) t1

/-- `Parser.parsePrimaryExpression`. -/
def parsePrimaryExpression (toks : List Token) :
    Except ParseError (PermissionExpressionNode × List Token) :=
  parseIdentifierChain toks

/-- Fueled `+`-chain loop of `Parser.parseAdditiveExpression`. -/
def parseAdditiveExpressionLoopF :
    Nat → PermissionExpressionNode → List Token →
    Except ParseError (PermissionExpressionNode × List Token)
  | 0, _, _ => .error fuelError
  | fuel + 1, left, toks =>
    if (peekT toks).type = .PLUS then
      match consume .PLUS toks with
      | .error e => .error e
      | .ok (opToken, t1) =>
        match parsePrimaryExpression t1 with
        | .error e => .error e
        | .ok (right, t2) =>
          parseAdditiveExpressionLoopF fuel (.binaryOp opToken.literal left right) t2
    else .ok (left, toks)

/-- `Parser.parseAdditiveExpression`. -/
def parseAdditiveExpression (toks : List Token) :
    Except ParseError (PermissionExpressionNode × List Token) :=
  match parsePrimaryExpression toks with
  | .error e => .error e
  | .ok (left, t1) => parseAdditiveExpressionLoopF (t1.length + 1) left t1

/-- `Parser.parsePermissionExpression`. -/
def parsePermissionExpression (toks : List Token) :
    Except ParseError (PermissionExpressionNode × List Token) :=
  parseAdditiveExpression toks

/-- `Parser.parsePermission`: `permission IDENT = permExpr`. -/
def parsePermission (toks : List Token) :
    Except ParseError (PermissionNode × List Token) :=
  match consume .PERMISSION toks with
  | .error e => .error e
  | .ok (_, t1) =>
    match consume .IDENTIFIER t1 with
    | .error e => .error e
    | .ok (nameToken, t2) =>
      match consume .EQUAL t2 with
      | .error e => .error e
      | .ok (_, t3) =>
        match parsePermissionExpression t3 with
        | .error e => .error e
        | .ok (expr, t4) =>
          .ok ({ name := nameToken.literal, expression := expr }, t4)

/-- Fueled body loop of `Parser.parseDefinition`
(`for peek == RELATION || peek == PERMISSION`). -/
def parseDefinitionBodyF :
    Nat → List RelationNode → List PermissionNode → List Token →
    Except ParseError ((List RelationNode × List PermissionNode) × List Token)
  | 0, _, _, _ => .error fuelError
  | fuel + 1, rels, perms, toks =>
    if (peekT toks).type = .RELATION then
      match parseRelation toks with
      | .error e => .error e
      | .ok (rel, rest) => parseDefinitionBodyF fuel (rels ++ [rel]) perms rest
    else if (peekT toks).type = .PERMISSION then
      match parsePermission toks with
      | .error e => .error e
      | .ok (perm, rest) => parseDefinitionBodyF fuel rels (perms ++ [perm]) rest
    else .ok ((rels, perms), toks)

/-- The tail of `Parser.parseDefinition` once the object type is known:
`{`, body, `}`. -/
def parseDefinitionRest (objectType : ObjectType) (toks : List Token) :
    Except ParseError (DefinitionNode × List Token) :=
  match consume .LBRACE toks with
  | .error e => .error e
  | .ok (_, t1) =>
    match parseDefinitionBodyF (t1.length + 1) [] [] t1 with
    | .error e => .error e
    | .ok ((rels, perms), t2) =>
      match consume .RBRACE t2 with
      | .error e => .error e
      | .ok (_, t3) =>
        .ok ({ objectType := objectType, relations := rels, permissions := perms }, t3)

/-- `Parser.parseDefinition`: keyword, object type (bare or
`prefix/name`, disambiguated by one token of lookahead), then the braced
body. -/
def parseDefinition (toks : List Token) :
    Except ParseError (DefinitionNode × List Token) :=
  match consume .DEFINITION toks with
  | .error e => .error e
  | .ok (_, t1) =>
    match consume .IDENTIFIER t1 with
    | .error e => .error e
    | .ok (firstToken, t2) =>
      if (peekT t2).type = .SLASH then
        match consume .SLASH t2 with
        | .error e => .error e
        | .ok (_, t3) =>
          match consume .IDENTIFIER t3 with
          | .error e => .error e
          | .ok (nameToken, t4) =>
            parseDefinitionRest
              { name := nameToken.literal, pfx := firstToken.literal } t4
      else if (peekT t2).type = .LBRACE then
        parseDefinitionRest { name := firstToken.literal, pfx := "" } t2
      else
        .error { context := "expected either / (for prefix/name format) or the opening brace (for standard format)",
                 expected := .LBRACE,
                 got := peekT t2 }

/-- Fueled top-level loop of `Parser.ParseDefinitions`
(`for peek != EOF`). -/
def parseDefinitionsLoopF :
    Nat → List DefinitionNode → List Token →
    Except ParseError (List DefinitionNode × List Token)
  | 0, _, _ => .error fuelError
  | fuel + 1, acc, toks =>
    if (peekT toks).type = .EOF then .ok (acc, toks)
    else if (peekT toks).type ≠ .DEFINITION then
      .error { context := "expected definition keyword",
               expected := .DEFINITION, got := peekT toks }
    else
      match parseDefinition toks with
      | .error e => .error e
      | .ok (d, rest) => parseDefinitionsLoopF fuel (acc ++ [d]) rest

/-- `Parser.ParseDefinitions`. -/
def parseDefinitions (toks : List Token) :
    Except ParseError (List DefinitionNode) :=
  Except.map (·.1) (parseDefinitionsLoopF (toks.length + 1) [] toks)

/-!  ## Semantic extractor and code generator
(the `authzgen` part of `internal/shared/validation.go`) -/

/-- `Relation` of the semantic model. -/
structure Relation where
  name : String
  types : List String
  isUnion : Bool
deriving DecidableEq, Repr

/-- `Permission` of the semantic model. -/
structure Permission where
  name : String
  expression : String
deriving DecidableEq, Repr

/-- `Definition` of the semantic model. -/
structure Definition where
  name : String
  package : String
  relations : List Relation
  permissions : List Permission
deriving DecidableEq, Repr

/-- `Schema`. -/
structure Schema where
  definitions : List Definition
deriving DecidableEq, Repr

/-- `extractTypesFromRelationExpression`: flatten a relation expression
into the rendered subject-type strings, left to right. -/
def extractTypesFromRelationExpression : RelationExpressionNode → List String
  | .singleRelation v f => if f ≠ "" then [v ++ "#" ++ f] else [v]
  | .unionRelation l r =>
    extractTypesFromRelationExpression l ++ extractTypesFromRelationExpression r

/-- The relation-conversion step of `Generator.parseSchema`: `IsUnion`
starts false and is set when the flattened list has more than one
entry. -/
def convertRelation (astRel : RelationNode) : Relation :=
  let types := extractTypesFromRelationExpression astRel.expression
  { name := astRel.name, types := types, isUnion := decide (types.length > 1) }

/-- The permission-conversion step of `Generator.parseSchema`. -/
def convertPermission (astPerm : PermissionNode) : Permission :=
  { name := astPerm.name, expression := astPerm.expression.toStr }

/-- The per-definition conversion loop of `Generator.parseSchema`: the
package hint is the object-type prefix, defaulting to `"authz"`. -/
def convertDefinition (astDef : DefinitionNode) : Definition :=
  { package := if astDef.objectType.pfx = "" then "authz" else astDef.objectType.pfx,
    name := astDef.objectType.name,
    relations := astDef.relations.map convertRelation,
    permissions := astDef.permissions.map convertPermission }

/-- The AST-to-model conversion at the end of `Generator.parseSchema`. -/
def astToSchema (astDefs : List DefinitionNode) : Schema :=
  { definitions := astDefs.map convertDefinition }

/-- The pure pipeline of `Generator.parseSchema` once the schema file has
been read: tokenize, parse, convert. -/
def parseSchema (content : String) : Except ParseError Schema :=
  Except.map astToSchema (parseDefinitions (tokenizeAll content))

/-- The package-name selection in `Generator.Generate`: `"authz"` unless
there is a first definition with a non-empty package hint. -/
def packageNameOf (schema : Schema) : String :=
  match schema.definitions with
  | [] => "authz"
  | d :: _ => if d.package ≠ "" then d.package else "authz"

/-- Kernel-computable decision procedure for the name comparison used by
the generator's sort (the default `String` order instance decides
through byte iterators, which the kernel cannot evaluate; comparing the
character lists is the same order). -/
def defNameLeDec : DecidableRel (fun a b : Definition => a.name ≤ b.name) :=
  fun a b =>
    decidable_of_iff (a.name.toList ≤ b.name.toList) String.le_iff_toList_le.symm

/-- The `sort.Slice(definitions, Name <)` call in
`Generator.generateCode`.  Go's `sort.Slice` is an arbitrary
comparison sort; it is embedded as an insertion sort, which produces the
same (unique) result whenever the names are pairwise distinct. -/
def sortDefinitions (definitions : List Definition) : List Definition :=
  @List.insertionSort Definition (fun a b => a.name ≤ b.name) defNameLeDec definitions

/-- Modelled from the spec: the template constant `codeTemplate` is not
part of the sources at hand (only its use in `generateCode` is).  Per
§4.4/§6 of the spec, the template renders the whole schema into one
source unit for package `pkg`, deterministically in the order of the
definition list it receives; the exact member shapes are a
generation-target concern.  This model therefore emits the package
clause followed by a deterministic rendering of each definition. -/
def renderTemplate (pkg : String) (definitions : List Definition) : String :=
  "package " ++ pkg ++ "\n" ++
    String.intercalate "\n"
      (definitions.map (fun d =>
        "type " ++ d.name ++
          String.intercalate ""
            (d.relations.map (fun r =>
              " relation " ++ r.name ++ ":" ++ String.intercalate "|" r.types)) ++
          String.intercalate ""
            (d.permissions.map (fun p => " permission " ++ p.name ++ "=" ++ p.expression))))

/-- What `Generator.generateCode` hands to the file writer together with
the error it returns (file-system effects aside): `fmtSource` stands for
the external `format.Source`; on a formatting error the unformatted
rendering is written and the error is dropped on the floor
(`formatted = buf` with no further use of `err`). -/
structure GenerateOutput where
  text : String
  err : Option String
deriving DecidableEq, Repr

/-- `Generator.generateCode` after the template has been parsed: sort the
definitions by name, render, try to format, fall back to the raw
rendering when formatting fails. -/
def generateCode (fmtSource : String → Except String String)
    (packageName : String) (definitions : List Definition) : GenerateOutput :=
  let sorted := sortDefinitions definitions
  let rendered := renderTemplate packageName sorted
  let formatted :=
    match fmtSource rendered with
    | .ok f => f
    | .error _ => rendered
  { text := formatted, err := none }

/-- `Generator.Generate` without the surrounding file I/O: parse the
schema text, pick the single package name, generate. -/
def generate (fmtSource : String → Except String String) (content : String) :
    Except ParseError GenerateOutput :=
  match parseSchema content with
  | .error e => .error e
  | .ok schema => .ok (generateCode fmtSource (packageNameOf schema) schema.definitions)

/-!  ## Spec-side auxiliary definitions -/

/-- Spec-side description of the extractor's flattening order: the
`SingleRelation` leaves of a relation expression in left-to-right
traversal order. -/
def leafNodes : RelationExpressionNode → List RelationExpressionNode
  | .singleRelation v f => [.singleRelation v f]
  | .unionRelation l r => leafNodes l ++ leafNodes r

/-!  ## Token constructors used to state parser properties -/

/-- An identifier token (the parser never reads positions on its success
paths, so they are fixed at 0 here). -/
def identToken (s : String) : Token :=
  { type := .IDENTIFIER, literal := s, line := 0, position := 0 }

/-- A `|` token. -/
def pipeToken : Token :=
  { type := .PIPE, literal := "|", line := 0, position := 0 }

/-- A `+` token. -/
def plusToken : Token :=
  { type := .PLUS, literal := "+", line := 0, position := 0 }

/-- A `->` token. -/
def arrowToken : Token :=
  { type := .MINUS_ARROW, literal := "->", line := 0, position := 0 }

/-- The token sequence of a `|`-chain continuation. -/
def pipeSeq (ns : List String) : List Token :=
  ns.flatMap (fun m => [pipeToken, identToken m])

/-- The token sequence of a `+`-chain continuation over identifiers. -/
def plusSeq (ns : List String) : List Token :=
  ns.flatMap (fun m => [plusToken, identToken m])

/-- The token sequence of a `->`-chain continuation. -/
def arrowSeq (ns : List String) : List Token :=
  ns.flatMap (fun m => [arrowToken, identToken m])

/-!  ## Definitions for the permission-expression round trip (C5) -/

/-- The part of a token the parser's success paths depend on. -/
def typeLit (t : Token) : TokenType × String := (t.type, t.literal)

/-- A string that the lexer tokenizes as one `IDENTIFIER` token: a
letter followed by letters/digits/underscores, and not a keyword. -/
def validIdent (s : String) : Bool :=
  match s.toList with
  | [] => false
  | c :: cs => isLetter c && cs.all isIdentChar && decide (lookupIdent s = .IDENTIFIER)

/-- The well-formedness facts that hold of every lexer-produced token
and that the round trip relies on. -/
def TokenWF (t : Token) : Prop :=
  (t.type = .IDENTIFIER → validIdent t.literal = true) ∧
  (t.type = .PLUS → t.literal = "+") ∧
  (t.type = .MINUS_ARROW → t.literal = "->")

/-- The arrow-chain shapes `parseIdentifierChain` produces: an
identifier, or an arrow node whose right operand is an identifier, with
all identifier names lexable. -/
inductive GoodArrow : PermissionExpressionNode → Prop where
  | ident (v : String) : validIdent v = true → GoodArrow (.identifier v)
  | arrow (a : PermissionExpressionNode) (w : String) :
      GoodArrow a → validIdent w = true →
      GoodArrow (.binaryOp "->" a (.identifier w))

/-- The additive-chain shapes `parseAdditiveExpression` produces. -/
inductive GoodPlus : PermissionExpressionNode → Prop where
  | base (a : PermissionExpressionNode) : GoodArrow a → GoodPlus a
  | plus (p a : PermissionExpressionNode) :
      GoodPlus p → GoodArrow a → GoodPlus (.binaryOp "+" p a)

/-- The space-separated words of a serialized permission expression. -/
inductive LexWord where
  | identW (s : String)
  | plusW
  | arrowW
deriving DecidableEq, Repr

/-- The characters of one word. -/
def wordText : LexWord → List Char
  | .identW s => s.toList
  | .plusW => ['+']
  | .arrowW => ['-', '>']

/-- The token kind and literal one word lexes to. -/
def wordPair : LexWord → TokenType × String
  | .identW s => (.IDENTIFIER, s)
  | .plusW => (.PLUS, "+")
  | .arrowW => (.MINUS_ARROW, "->")

/-- Identifier words must be lexable identifiers. -/
def WordOK : LexWord → Prop
  | .identW s => validIdent s = true
  | .plusW => True
  | .arrowW => True

/-- Words joined by single spaces, as the `String()` serialization
produces them. -/
def textOfWords : List LexWord → List Char
  | [] => []
  | [w] => wordText w
  | w :: ws => wordText w ++ ' ' :: textOfWords ws

/-- The word sequence of a permission expression's serialization. -/
def wordsOfPerm : PermissionExpressionNode → List LexWord
  | .identifier v => [.identW v]
  | .binaryOp op l r =>
    wordsOfPerm l ++ (if op = "+" then LexWord.plusW else .arrowW) :: wordsOfPerm r

/-- A lexer state in terms of the current character and remaining
text. -/
def lexerAt (c : Char) (cs : List Char) (line col : Nat) : Lexer :=
  { ch := c, rest := cs, line := line, linePosition := col }

/-- Left fold of an arrow chain, as `parseIdentifierChain` builds it. -/
def arrowFold (v : String) (tws : List String) : PermissionExpressionNode :=
  tws.foldl (fun acc w => .binaryOp "->" acc (.identifier w)) (.identifier v)

/-- The `(type, literal)` pairs of an arrow chain's tokens. -/
def arrowChainPairs (v : String) (tws : List String) : List (TokenType × String) :=
  (.IDENTIFIER, v) :: tws.flatMap (fun w => [(.MINUS_ARROW, "->"), (.IDENTIFIER, w)])

/-- Left fold of an additive chain over arrow chains, as
`parseAdditiveExpression` builds it. -/
def plusFold (a0 : PermissionExpressionNode) (chains : List (String × List String)) :
    PermissionExpressionNode :=
  chains.foldl (fun acc ch => .binaryOp "+" acc (arrowFold ch.1 ch.2)) a0

/-- The token pairs of one arrow chain given as a descriptor. -/
def chainPairs (ch : String × List String) : List (TokenType × String) :=
  arrowChainPairs ch.1 ch.2

end Authzgen

namespace Authzgen

/-- Decidable equality on `Except` results, used to settle the concrete
pipeline computations by evaluation. -/
instance {ε α : Type _} [DecidableEq ε] [DecidableEq α] : DecidableEq (Except ε α) :=
  fun x y =>
  match x, y with
  | .ok a, .ok b =>
    if h : a = b then .isTrue (by rw [h]) else .isFalse (by intro hh; cases hh; exact h rfl)
  | .error a, .error b =>
    if h : a = b then .isTrue (by rw [h]) else .isFalse (by intro hh; cases hh; exact h rfl)
  | .ok _, .error _ => .isFalse (by intro hh; cases hh)
  | .error _, .ok _ => .isFalse (by intro hh; cases hh)

/-!  ## Claim theorems -/

/-- C1: parsing `definition d { permission p = a + b -> c }` succeeds and
yields exactly one permission, named `p`, whose expression tree is
`BinaryOp("+", Identifier(a), BinaryOp("->", Identifier(b),
Identifier(c)))` and whose serialized expression text is
`a + b -> c`. -/
theorem c1_additive_arrow_example :
    parseDefinitions (tokenizeAll "definition d { permission p = a + b -> c }") =
      .ok [{ objectType := { name := "d", pfx := "" },
             relations := [],
             permissions := [{ name := "p",
                               expression := .binaryOp "+" (.identifier "a")
                                 (.binaryOp "->" (.identifier "b") (.identifier "c")) }] }] ∧
    (PermissionExpressionNode.binaryOp "+" (.identifier "a")
        (.binaryOp "->" (.identifier "b") (.identifier "c"))).toStr = "a + b -> c" := by
  constructor
  · decide
  · decide

/-- C2: the extractor's flattened `Types` list is the left-to-right
sequence of rendered `SingleRelation` leaves; `relation r: a | b | c`
yields `["a", "b", "c"]` with `IsUnion = true`, `relation r: a` yields
`["a"]` with `IsUnion = false`, and `IsUnion` is true iff the flattened
list has more than one element. -/
theorem c2_relation_flattening :
    (∀ e : RelationExpressionNode,
      extractTypesFromRelationExpression e = (leafNodes e).map RelationExpressionNode.toStr) ∧
    (∀ rn : RelationNode,
      (convertRelation rn).isUnion = true ↔ (convertRelation rn).types.length > 1) ∧
    Except.map (fun r => convertRelation r.1)
        (parseRelation (tokenizeAll "relation r: a | b | c")) =
      .ok { name := "r", types := ["a", "b", "c"], isUnion := true } ∧
    Except.map (fun r => convertRelation r.1)
        (parseRelation (tokenizeAll "relation r: a")) =
      .ok { name := "r", types := ["a"], isUnion := false } := by
  refine ⟨?_, ?_, by decide, by decide⟩
  · intro e
    induction e with
    | singleRelation v f =>
      by_cases h : f = "" <;> simp [extractTypesFromRelationExpression, leafNodes,
        RelationExpressionNode.toStr, h]
    | unionRelation l r ihl ihr =>
      simp [extractTypesFromRelationExpression, leafNodes, ihl, ihr]
  · intro rn
    simp [convertRelation]

/-- C3: all definitions of one run share a single package whose name is
the first definition's object-type prefix when that prefix is non-empty
and the default `authz` otherwise, regardless of the other definitions'
prefixes. -/
theorem c3_package_from_first_definition :
    ∀ (d : DefinitionNode) (ds : List DefinitionNode),
      packageNameOf (astToSchema (d :: ds)) =
        (if d.objectType.pfx = "" then "authz" else d.objectType.pfx) := by
  intro d ds
  by_cases h : d.objectType.pfx = "" <;>
    simp [astToSchema, convertDefinition, packageNameOf, h]

/-!  ## Left-associativity of the parser's operator chains (C6) -/

theorem peekT_cons (t : Token) (ts : List Token) : peekT (t :: ts) = t := rfl

theorem peekT_nil : peekT [] = defaultToken := rfl

theorem pipeSeq_cons (m : String) (ms : List String) :
    pipeSeq (m :: ms) = pipeToken :: identToken m :: pipeSeq ms := by
  simp [pipeSeq]

theorem plusSeq_cons (m : String) (ms : List String) :
    plusSeq (m :: ms) = plusToken :: identToken m :: plusSeq ms := by
  simp [plusSeq]

theorem arrowSeq_cons (m : String) (ms : List String) :
    arrowSeq (m :: ms) = arrowToken :: identToken m :: arrowSeq ms := by
  simp [arrowSeq]

theorem length_pipeSeq (ns : List String) : (pipeSeq ns).length = 2 * ns.length := by
  induction ns with
  | nil => simp [pipeSeq]
  | cons m ms ih => rw [pipeSeq_cons]; simp [ih]; omega

theorem length_plusSeq (ns : List String) : (plusSeq ns).length = 2 * ns.length := by
  induction ns with
  | nil => simp [plusSeq]
  | cons m ms ih => rw [plusSeq_cons]; simp [ih]; omega

theorem length_arrowSeq (ns : List String) : (arrowSeq ns).length = 2 * ns.length := by
  induction ns with
  | nil => simp [arrowSeq]
  | cons m ms ih => rw [arrowSeq_cons]; simp [ih]; omega

/-- `consume` succeeds on a matching head token. -/
theorem consume_ok (expected : TokenType) (t : Token) (ts : List Token)
    (h : t.type = expected) : consume expected (t :: ts) = .ok (t, ts) := by
  simp [consume, peekT_cons, h]

/-- `parseSingleRelation` on a bare identifier token not followed by `/`
or `#`. -/
theorem parseSingleRelation_ident (s : String) (rest : List Token)
    (hs : (peekT rest).type ≠ .SLASH) (hh : (peekT rest).type ≠ .HASH) :
    parseSingleRelation (identToken s :: rest) = .ok (.singleRelation s "", rest) := by
  rw [parseSingleRelation, consume_ok .IDENTIFIER _ _ (by simp [identToken])]
  simp [identToken, hs, hh]

/-- The `->` loop returns its accumulator unchanged when the next token
is not an arrow. -/
theorem parseIdentifierChainLoopF_stop (fuel : Nat) (left : PermissionExpressionNode)
    (toks : List Token) (h : (peekT toks).type ≠ .MINUS_ARROW) :
    parseIdentifierChainLoopF (fuel + 1) left toks = .ok (left, toks) := by
  simp [parseIdentifierChainLoopF, h]

/-- `parseIdentifierChain` on an identifier token not followed by an
arrow. -/
theorem parseIdentifierChain_ident (s : String) (rest : List Token)
    (h : (peekT rest).type ≠ .MINUS_ARROW) :
    parseIdentifierChain (identToken s :: rest) = .ok (.identifier s, rest) := by
  rw [parseIdentifierChain, consume_ok .IDENTIFIER _ _ (by simp [identToken])]
  simp [identToken, parseIdentifierChainLoopF_stop _ _ _ h]

/-- One iteration of the `|` loop when the next token is a pipe. -/
theorem parseRelationExpressionLoopF_succ_pipe (f : Nat) (left : RelationExpressionNode)
    (toks : List Token) (h : (peekT toks).type = .PIPE) :
    parseRelationExpressionLoopF (f + 1) left toks =
      (match parseSingleRelation toks.tail with
       | .error e => .error e
       | .ok (right, t2) => parseRelationExpressionLoopF f (.unionRelation left right) t2) := by
  simp [parseRelationExpressionLoopF, consume, h]

/-- One iteration of the `->` loop when the next token is an arrow. -/
theorem parseIdentifierChainLoopF_succ_arrow (f : Nat) (left : PermissionExpressionNode)
    (toks : List Token) (h : (peekT toks).type = .MINUS_ARROW) :
    parseIdentifierChainLoopF (f + 1) left toks =
      (match consume .IDENTIFIER toks.tail with
       | .error e => .error e
       | .ok (rightToken, t2) =>
         parseIdentifierChainLoopF f
           (.binaryOp (peekT toks).literal left (.identifier rightToken.literal)) t2) := by
  simp [parseIdentifierChainLoopF, consume, h]

/-- One iteration of the `+` loop when the next token is a plus. -/
theorem parseAdditiveExpressionLoopF_succ_plus (f : Nat) (left : PermissionExpressionNode)
    (toks : List Token) (h : (peekT toks).type = .PLUS) :
    parseAdditiveExpressionLoopF (f + 1) left toks =
      (match parsePrimaryExpression toks.tail with
       | .error e => .error e
       | .ok (right, t2) =>
         parseAdditiveExpressionLoopF f (.binaryOp (peekT toks).literal left right) t2) := by
  simp [parseAdditiveExpressionLoopF, consume, h]

/-- The `|` loop folds its continuation tokens into a left-nested union
chain. -/
theorem parseRelationExpressionLoopF_fold (ns : List String) :
    ∀ (fuel : Nat) (left : RelationExpressionNode) (rest : List Token),
      2 * ns.length + rest.length < fuel →
      (peekT rest).type ≠ .PIPE → (peekT rest).type ≠ .SLASH →
      (peekT rest).type ≠ .HASH →
      parseRelationExpressionLoopF fuel left (pipeSeq ns ++ rest) =
        .ok (ns.foldl (fun acc m => .unionRelation acc (.singleRelation m "")) left, rest) := by
  induction ns with
  | nil =>
    intro fuel left rest hfuel hp _ _
    cases fuel with
    | zero => omega
    | succ f => simp [pipeSeq, parseRelationExpressionLoopF, hp]
  | cons m ms ih =>
    intro fuel left rest hfuel hp hs hh
    cases fuel with
    | zero => omega
    | succ f =>
      have hpk : (peekT (pipeSeq ms ++ rest)).type ≠ .SLASH ∧
          (peekT (pipeSeq ms ++ rest)).type ≠ .HASH := by
        cases ms with
        | nil => simpa [pipeSeq] using ⟨hs, hh⟩
        | cons a as =>
          rw [pipeSeq_cons]
          exact ⟨by simp +decide [peekT_cons, pipeToken], by simp +decide [peekT_cons, pipeToken]⟩
      have hlt : 2 * ms.length + rest.length < f := by simp at hfuel; omega
      rw [pipeSeq_cons, List.cons_append,
        parseRelationExpressionLoopF_succ_pipe f _ _ (by simp [peekT_cons, pipeToken]),
        List.tail_cons, List.cons_append, parseSingleRelation_ident m _ hpk.1 hpk.2]
      simpa using ih f (.unionRelation left (.singleRelation m "")) rest hlt hp hs hh

/-- The `->` loop folds its continuation tokens into a left-nested
arrow chain. -/
theorem parseIdentifierChainLoopF_fold (ns : List String) :
    ∀ (fuel : Nat) (left : PermissionExpressionNode) (rest : List Token),
      2 * ns.length + rest.length < fuel →
      (peekT rest).type ≠ .MINUS_ARROW →
      parseIdentifierChainLoopF fuel left (arrowSeq ns ++ rest) =
        .ok (ns.foldl (fun acc m => .binaryOp "->" acc (.identifier m)) left, rest) := by
  induction ns with
  | nil =>
    intro fuel left rest hfuel ha
    cases fuel with
    | zero => omega
    | succ f => simp [arrowSeq, parseIdentifierChainLoopF, ha]
  | cons m ms ih =>
    intro fuel left rest hfuel ha
    cases fuel with
    | zero => omega
    | succ f =>
      have hlt : 2 * ms.length + rest.length < f := by simp at hfuel; omega
      rw [arrowSeq_cons, List.cons_append,
        parseIdentifierChainLoopF_succ_arrow f _ _ (by simp [peekT_cons, arrowToken]),
        List.tail_cons, List.cons_append, consume_ok .IDENTIFIER _ _ (by simp [identToken])]
      simpa [peekT_cons, arrowToken, identToken] using
        ih f (.binaryOp "->" left (.identifier m)) rest hlt ha

/-- The `+` loop over plain-identifier primaries folds its continuation
tokens into a left-nested additive chain. -/
theorem parseAdditiveExpressionLoopF_fold (ns : List String) :
    ∀ (fuel : Nat) (left : PermissionExpressionNode) (rest : List Token),
      2 * ns.length + rest.length < fuel →
      (peekT rest).type ≠ .PLUS → (peekT rest).type ≠ .MINUS_ARROW →
      parseAdditiveExpressionLoopF fuel left (plusSeq ns ++ rest) =
        .ok (ns.foldl (fun acc m => .binaryOp "+" acc (.identifier m)) left, rest) := by
  induction ns with
  | nil =>
    intro fuel left rest hfuel hp _
    cases fuel with
    | zero => omega
    | succ f => simp [plusSeq, parseAdditiveExpressionLoopF, hp]
  | cons m ms ih =>
    intro fuel left rest hfuel hp ha
    cases fuel with
    | zero => omega
    | succ f =>
      have hpk : (peekT (plusSeq ms ++ rest)).type ≠ .MINUS_ARROW := by
        cases ms with
        | nil => simpa [plusSeq] using ha
        | cons a as => rw [plusSeq_cons]; simp +decide [peekT_cons, plusToken]
      have hlt : 2 * ms.length + rest.length < f := by simp at hfuel; omega
      rw [plusSeq_cons, List.cons_append,
        parseAdditiveExpressionLoopF_succ_plus f _ _ (by simp [peekT_cons, plusToken]),
        List.tail_cons, List.cons_append]
      rw [show parsePrimaryExpression (identToken m :: (plusSeq ms ++ rest)) =
            .ok (.identifier m, plusSeq ms ++ rest) from
          parseIdentifierChain_ident m _ hpk]
      simpa [peekT_cons, plusToken] using
        ih f (.binaryOp "+" left (.identifier m)) rest hlt hp ha

/-- C6: union relation chains (`|`) and additive permission chains (`+`)
parse left-associatively, built iteratively, so `a | b | c` becomes
`Union(Union(a, b), c)`; the `->` operator inside a permission primary
is likewise folded left-to-right into nested `BinaryOp("->")` nodes. -/
theorem c6_left_associativity :
    (∀ (n : String) (ns : List String) (rest : List Token),
      (peekT rest).type ≠ .PIPE → (peekT rest).type ≠ .SLASH →
      (peekT rest).type ≠ .HASH →
      parseRelationExpression (identToken n :: (pipeSeq ns ++ rest)) =
        .ok (ns.foldl (fun acc m => .unionRelation acc (.singleRelation m ""))
               (.singleRelation n ""), rest)) ∧
    (∀ (n : String) (ns : List String) (rest : List Token),
      (peekT rest).type ≠ .MINUS_ARROW →
      parseIdentifierChain (identToken n :: (arrowSeq ns ++ rest)) =
        .ok (ns.foldl (fun acc m => .binaryOp "->" acc (.identifier m))
               (.identifier n), rest)) ∧
    (∀ (n : String) (ns : List String) (rest : List Token),
      (peekT rest).type ≠ .PLUS → (peekT rest).type ≠ .MINUS_ARROW →
      parseAdditiveExpression (identToken n :: (plusSeq ns ++ rest)) =
        .ok (ns.foldl (fun acc m => .binaryOp "+" acc (.identifier m))
               (.identifier n), rest)) ∧
    parseRelationExpression (tokenizeAll "a | b | c") =
      .ok (.unionRelation
             (.unionRelation (.singleRelation "a" "") (.singleRelation "b" ""))
             (.singleRelation "c" ""),
           [{ type := .EOF, literal := "", line := 1, position := 10 }]) := by
  refine ⟨?_, ?_, ?_, by decide⟩
  · intro n ns rest hp hs hh
    have hpk : (peekT (pipeSeq ns ++ rest)).type ≠ .SLASH ∧
        (peekT (pipeSeq ns ++ rest)).type ≠ .HASH := by
      cases ns with
      | nil => simpa [pipeSeq] using ⟨hs, hh⟩
      | cons a as =>
        rw [pipeSeq_cons]
        exact ⟨by simp +decide [peekT_cons, pipeToken], by simp +decide [peekT_cons, pipeToken]⟩
    have hfold := parseRelationExpressionLoopF_fold ns ((pipeSeq ns ++ rest).length + 1)
      (.singleRelation n "") rest (by simp [length_pipeSeq]) hp hs hh
    rw [parseRelationExpression, parseSingleRelation_ident n _ hpk.1 hpk.2]
    exact hfold
  · intro n ns rest ha
    have hfold := parseIdentifierChainLoopF_fold ns ((arrowSeq ns ++ rest).length + 1)
      (.identifier n) rest (by simp [length_arrowSeq]) ha
    rw [parseIdentifierChain, consume_ok .IDENTIFIER _ _ (by simp [identToken])]
    simpa [identToken] using hfold
  · intro n ns rest hp ha
    have hpk : (peekT (plusSeq ns ++ rest)).type ≠ .MINUS_ARROW := by
      cases ns with
      | nil => simpa [plusSeq] using ha
      | cons a as => rw [plusSeq_cons]; simp +decide [peekT_cons, plusToken]
    have hfold := parseAdditiveExpressionLoopF_fold ns ((plusSeq ns ++ rest).length + 1)
      (.identifier n) rest (by simp [length_plusSeq]) hp ha
    rw [parseAdditiveExpression,
      show parsePrimaryExpression (identToken n :: (plusSeq ns ++ rest)) =
          .ok (.identifier n, plusSeq ns ++ rest) from
        parseIdentifierChain_ident n _ hpk]
    exact hfold

/-- Witness for C6 at concrete inputs `a | b | c`, `a -> b -> c` and
`a + b + c` with empty continuations. -/
theorem c6_witness :
    parseRelationExpression (identToken "a" :: (pipeSeq ["b", "c"] ++ [])) =
      .ok ((["b", "c"]).foldl (fun acc m => .unionRelation acc (.singleRelation m ""))
             (.singleRelation "a" ""), []) ∧
    parseIdentifierChain (identToken "a" :: (arrowSeq ["b", "c"] ++ [])) =
      .ok ((["b", "c"]).foldl (fun acc m => .binaryOp "->" acc (.identifier m))
             (.identifier "a"), []) ∧
    parseAdditiveExpression (identToken "a" :: (plusSeq ["b", "c"] ++ [])) =
      .ok ((["b", "c"]).foldl (fun acc m => .binaryOp "+" acc (.identifier m))
             (.identifier "a"), []) :=
  ⟨c6_left_associativity.1 "a" ["b", "c"] [] (by decide) (by decide) (by decide),
   c6_left_associativity.2.1 "a" ["b", "c"] [] (by decide),
   c6_left_associativity.2.2.1 "a" ["b", "c"] [] (by decide) (by decide)⟩

/-- C7 counterexample: with a formatter that fails, `generateCode`
returns the unformatted rendering but its returned error is `none` —
the formatting error is not reported to the caller in any form,
refuting the reporting half of the claim at this input. -/
theorem c7_counterexample_format_error_dropped :
    (generateCode (fun _ => .error "not formattable") "authz" []).text =
      renderTemplate "authz" (sortDefinitions []) ∧
    (generateCode (fun _ => .error "not formattable") "authz" []).err = none :=
  ⟨rfl, rfl⟩

/-- C7 as amended: when formatting the rendered template output fails,
the generator emits the unformatted rendered text instead of aborting —
but the formatting error is silently discarded, not reported to the
caller. -/
theorem c7_format_fallback :
    ∀ (fmtSource : String → Except String String) (pkg : String)
      (defs : List Definition) (msg : String),
      fmtSource (renderTemplate pkg (sortDefinitions defs)) = .error msg →
      (generateCode fmtSource pkg defs).text = renderTemplate pkg (sortDefinitions defs) ∧
      (generateCode fmtSource pkg defs).err = none := by
  intro fmtSource pkg defs msg h
  simp [generateCode, h]

/-- Witness for C7's amended statement with an always-failing
formatter. -/
theorem c7_witness :
    (generateCode (fun _ => .error "m") "pkg" []).text =
      renderTemplate "pkg" (sortDefinitions []) ∧
    (generateCode (fun _ => .error "m") "pkg" []).err = none :=
  c7_format_fallback (fun _ => .error "m") "pkg" [] "m" rfl

/-!  ## Lexer termination and the trailing EOF token (C8) -/

/-- Two characters differ when a Boolean character class separates
them. -/
theorem char_ne_of_class {p : Char → Bool} {c d : Char}
    (hc : p c = true) (hd : p d = false) : c ≠ d := by
  intro h
  rw [h, hd] at hc
  cases hc

theorem measureOf_pos (l : Lexer) (h : l.ch ≠ nulChar) : 0 < measureOf l := by
  simp [measureOf, h]

/-- The measure of the advanced state, in terms of the old one. -/
theorem measureOf_readChar_eq (l : Lexer) :
    measureOf (readChar l) =
      2 * l.rest.tail.length + (if l.rest.headD nulChar = nulChar then 0 else 1) := by
  cases hr : l.rest with
  | nil => simp +decide [readChar, measureOf, hr]
  | cons c r =>
    by_cases hn : c = '\n' <;> simp [readChar, measureOf, hr, hn]

theorem readChar_measure_le (l : Lexer) : measureOf (readChar l) ≤ measureOf l := by
  rw [measureOf_readChar_eq, measureOf]
  cases l.rest with
  | nil => simp
  | cons c r => simp; split_ifs <;> omega

theorem readChar_measure_lt (l : Lexer) (h : 0 < measureOf l) :
    measureOf (readChar l) < measureOf l := by
  revert h
  rw [measureOf_readChar_eq, measureOf]
  cases l.rest with
  | nil => simp
  | cons c r => simp; split_ifs <;> omega

theorem skipWhitespaceF_measure_le (fuel : Nat) :
    ∀ l : Lexer, measureOf (skipWhitespaceF fuel l) ≤ measureOf l := by
  induction fuel with
  | zero => intro l; simp [skipWhitespaceF]
  | succ f ih =>
    intro l
    by_cases h : isWhitespaceChar l.ch
    · rw [skipWhitespaceF, if_pos h]
      exact le_trans (ih (readChar l)) (readChar_measure_le l)
    · rw [skipWhitespaceF, if_neg h]

theorem skipWhitespace_measure_le (l : Lexer) :
    measureOf (skipWhitespace l) ≤ measureOf l :=
  skipWhitespaceF_measure_le _ l

theorem skipCommentLoopF_measure_le (fuel : Nat) :
    ∀ l : Lexer, measureOf (skipCommentLoopF fuel l) ≤ measureOf l := by
  induction fuel with
  | zero => intro l; simp [skipCommentLoopF]
  | succ f ih =>
    intro l
    by_cases h : l.ch ≠ '\n' ∧ l.ch ≠ nulChar
    · rw [skipCommentLoopF, if_pos h]
      exact le_trans (ih (readChar l)) (readChar_measure_le l)
    · rw [skipCommentLoopF, if_neg h]

theorem skipComment_measure_le (l : Lexer) :
    measureOf (skipComment l) ≤ measureOf l := by
  rw [skipComment]
  by_cases h : l.ch = '/' ∧ peekChar l = '/'
  · rw [if_pos h]; exact skipCommentLoopF_measure_le _ l
  · rw [if_neg h]

theorem skipComment_measure_lt (l : Lexer) (h : l.ch = '/' ∧ peekChar l = '/') :
    measureOf (skipComment l) < measureOf l := by
  have hch : l.ch ≠ nulChar := by rw [h.1]; decide
  have hpos := measureOf_pos l hch
  have hguard : l.ch ≠ '\n' ∧ l.ch ≠ nulChar := by
    constructor
    · rw [h.1]; decide
    · exact hch
  rw [skipComment, if_pos h, skipCommentLoopF, if_pos hguard]
  exact lt_of_le_of_lt (skipCommentLoopF_measure_le _ (readChar l))
    (readChar_measure_lt l hpos)

theorem skipCommentsF_measure_le (fuel : Nat) :
    ∀ l : Lexer, measureOf (skipCommentsF fuel l) ≤ measureOf l := by
  induction fuel with
  | zero => intro l; simp [skipCommentsF]
  | succ f ih =>
    intro l
    by_cases h : l.ch = '/' ∧ peekChar l = '/'
    · rw [skipCommentsF, if_pos h]
      exact le_trans (ih _) (le_trans (skipWhitespace_measure_le _)
        (skipComment_measure_le l))
    · rw [skipCommentsF, if_neg h]

theorem skipComments_measure_le (l : Lexer) :
    measureOf (skipComments l) ≤ measureOf l :=
  skipCommentsF_measure_le _ l

theorem readIdentifierLoopF_measure_le (fuel : Nat) :
    ∀ (l : Lexer) (acc : List Char),
      measureOf (readIdentifierLoopF fuel l acc).2 ≤ measureOf l := by
  induction fuel with
  | zero => intro l acc; simp [readIdentifierLoopF]
  | succ f ih =>
    intro l acc
    by_cases h : isIdentChar l.ch
    · rw [readIdentifierLoopF, if_pos h]
      exact le_trans (ih (readChar l) _) (readChar_measure_le l)
    · rw [readIdentifierLoopF, if_neg h]

theorem readIdentifier_measure_lt (l : Lexer) (h : isLetter l.ch = true) :
    measureOf (readIdentifier l).2 < measureOf l := by
  have hch : l.ch ≠ nulChar := char_ne_of_class h (by decide)
  have hident : isIdentChar l.ch := by simp [isIdentChar, h]
  rw [readIdentifier]
  show measureOf (readIdentifierLoopF (measureOf l + 1) l []).2 < measureOf l
  rw [readIdentifierLoopF, if_pos hident]
  exact lt_of_le_of_lt (readIdentifierLoopF_measure_le _ (readChar l) _)
    (readChar_measure_lt l (measureOf_pos l hch))

/-- `NextToken` never increases the measure, and strictly decreases it
whenever it returns a non-EOF token. -/
theorem nextTokenF_measure :
    ∀ (fuel : Nat) (l₀ : Lexer),
      measureOf (nextTokenF fuel l₀).2 ≤ measureOf l₀ ∧
      ((nextTokenF fuel l₀).1.type ≠ .EOF →
        measureOf (nextTokenF fuel l₀).2 < measureOf l₀) := by
  intro fuel
  induction fuel with
  | zero =>
    intro l₀
    exact ⟨le_refl _, fun h => absurd rfl h⟩
  | succ f ih =>
    intro l₀
    have hle : measureOf (skipComments (skipWhitespace l₀)) ≤ measureOf l₀ :=
      le_trans (skipComments_measure_le _) (skipWhitespace_measure_le _)
    simp only [nextTokenF]
    generalize hgen : skipComments (skipWhitespace l₀) = l at hle ⊢
    have step : ∀ tok : Token, l.ch ≠ nulChar →
        measureOf (tok, readChar l).2 ≤ measureOf l₀ ∧
        ((tok, readChar l).1.type ≠ .EOF →
          measureOf (tok, readChar l).2 < measureOf l₀) := by
      intro tok hch
      have hlt := lt_of_lt_of_le (readChar_measure_lt l (measureOf_pos l hch)) hle
      exact ⟨le_of_lt hlt, fun _ => hlt⟩
    by_cases h1 : l.ch = '='
    · rw [if_pos h1]; exact step _ (by rw [h1]; decide)
    rw [if_neg h1]
    by_cases h2 : l.ch = '+'
    · rw [if_pos h2]; exact step _ (by rw [h2]; decide)
    rw [if_neg h2]
    by_cases h3 : l.ch = '|'
    · rw [if_pos h3]; exact step _ (by rw [h3]; decide)
    rw [if_neg h3]
    by_cases h4 : l.ch = '*'
    · rw [if_pos h4]; exact step _ (by rw [h4]; decide)
    rw [if_neg h4]
    by_cases h5 : l.ch = '{'
    · rw [if_pos h5]; exact step _ (by rw [h5]; decide)
    rw [if_neg h5]
    by_cases h6 : l.ch = '}'
    · rw [if_pos h6]; exact step _ (by rw [h6]; decide)
    rw [if_neg h6]
    by_cases h7 : l.ch = ':'
    · rw [if_pos h7]; exact step _ (by rw [h7]; decide)
    rw [if_neg h7]
    by_cases h8 : l.ch = '/'
    · rw [if_pos h8]
      by_cases h8p : peekChar l = '/'
      · -- dead `//` branch: recursion after a strict decrease
        rw [if_pos h8p]
        have hsc := skipComment_measure_lt l ⟨h8, h8p⟩
        have hmid : measureOf (skipWhitespace (skipComment l)) < measureOf l₀ :=
          lt_of_le_of_lt (skipWhitespace_measure_le _) (lt_of_lt_of_le hsc hle)
        obtain ⟨ha, _⟩ := ih (skipWhitespace (skipComment l))
        exact ⟨le_of_lt (lt_of_le_of_lt ha hmid), fun _ => lt_of_le_of_lt ha hmid⟩
      · rw [if_neg h8p]; exact step _ (by rw [h8]; decide)
    rw [if_neg h8]
    by_cases h9 : l.ch = '#'
    · rw [if_pos h9]; exact step _ (by rw [h9]; decide)
    rw [if_neg h9]
    by_cases h10 : l.ch = '-'
    · rw [if_pos h10]
      by_cases h10p : peekChar l = '>'
      · -- `->` token: two characters are consumed
        rw [if_pos h10p]
        have ha := readChar_measure_lt l (measureOf_pos l (by rw [h10]; decide))
        have hlt : measureOf (readChar (readChar l)) < measureOf l₀ :=
          lt_of_le_of_lt (readChar_measure_le (readChar l)) (lt_of_lt_of_le ha hle)
        exact ⟨le_of_lt hlt, fun _ => hlt⟩
      · rw [if_neg h10p]; exact step _ (by rw [h10]; decide)
    rw [if_neg h10]
    by_cases h11 : l.ch = nulChar
    · -- EOF
      rw [if_pos h11]
      exact ⟨le_trans (readChar_measure_le l) hle, fun hne => absurd rfl hne⟩
    rw [if_neg h11]
    by_cases h12 : isLetter l.ch = true
    · -- identifier or keyword
      rw [if_pos h12]
      have hlt := lt_of_lt_of_le (readIdentifier_measure_lt l h12) hle
      rcases hri : readIdentifier l with ⟨lit, l2⟩
      rw [hri] at hlt
      exact ⟨le_of_lt hlt, fun _ => hlt⟩
    · -- illegal character
      rw [if_neg h12]
      exact step _ h11

theorem nextToken_measure (l : Lexer) :
    measureOf (nextToken l).2 ≤ measureOf l ∧
    ((nextToken l).1.type ≠ .EOF → measureOf (nextToken l).2 < measureOf l) :=
  nextTokenF_measure _ l

/-- With fuel above the measure, `TokenizeAll` produces a token list
that ends in an EOF token and contains no other EOF token. -/
theorem tokenizeAllF_eof :
    ∀ (fuel : Nat) (l : Lexer), measureOf l < fuel →
      ∃ pre t, tokenizeAllF fuel l = pre ++ [t] ∧ t.type = .EOF ∧
        ∀ t' ∈ pre, t'.type ≠ .EOF := by
  intro fuel
  induction fuel with
  | zero => intro l h; omega
  | succ f ih =>
    intro l h
    rcases hnt : nextToken l with ⟨tok, l'⟩
    by_cases he : tok.type = .EOF
    · refine ⟨[], tok, ?_, he, by simp⟩
      simp [tokenizeAllF, hnt, he]
    · have hm := (nextToken_measure l).2
      rw [hnt] at hm
      have hlt : measureOf l' < measureOf l := hm he
      obtain ⟨pre, t, heq, het, hpre⟩ := ih l' (by omega)
      refine ⟨tok :: pre, t, ?_, het, ?_⟩
      · simp [tokenizeAllF, hnt, he, heq]
      · intro t' ht'
        rcases List.mem_cons.mp ht' with rfl | hmem
        · exact he
        · exact hpre _ hmem

/-- Every tokenization ends with exactly one EOF token. -/
theorem tokenizeAll_ends_eof (input : String) :
    ∃ pre t, tokenizeAll input = pre ++ [t] ∧ t.type = .EOF ∧
      ∀ t' ∈ pre, t'.type ≠ .EOF :=
  tokenizeAllF_eof _ _ (Nat.lt_succ_self _)

theorem skipWhitespaceF_id (fuel : Nat) (l : Lexer)
    (h : isWhitespaceChar l.ch = false) : skipWhitespaceF fuel l = l := by
  cases fuel <;> simp [skipWhitespaceF, h]

theorem skipCommentsF_id (fuel : Nat) (l : Lexer)
    (h : ¬(l.ch = '/' ∧ peekChar l = '/')) : skipCommentsF fuel l = l := by
  cases fuel <;> simp [skipCommentsF, h]

/-- At an unrecognized character `NextToken` emits an illegal token
carrying exactly that character and advances past it. -/
theorem nextToken_unrecognized (l : Lexer)
    (hws : isWhitespaceChar l.ch = false)
    (hmem : l.ch ∉ (['=', '+', '|', '*', '{', '}', ':', '/', '#', '-'] : List Char))
    (hnul : l.ch ≠ nulChar)
    (hletter : isLetter l.ch = false) :
    nextToken l = ({ type := .ILLEGAL,
                     literal := String.mk [l.ch],
                     line := l.line,
                     position := (l.linePosition : Int) }, readChar l) := by
  simp only [List.mem_cons, List.not_mem_nil, or_false, not_or] at hmem
  obtain ⟨h1, h2, h3, h4, h5, h6, h7, h8, h9, h10⟩ := hmem
  have hid : skipComments (skipWhitespace l) = l := by
    rw [skipWhitespace, skipWhitespaceF_id _ _ hws, skipComments,
      skipCommentsF_id _ _ (fun hc => h8 hc.1)]
  rw [nextToken, nextTokenF, hid]
  simp [h1, h2, h3, h4, h5, h6, h7, h8, h9, h10, hnul, hletter, charToken]

/-- C8: for every input string, tokenization terminates with a finite
token sequence whose last element is the only end-of-input token, and it
never fails: an unrecognized character (not whitespace, not one of the
operator characters, not a letter, not the 0 sentinel) is emitted as an
illegal token carrying that character. -/
theorem c8_tokenization_total :
    (∀ input : String,
      ∃ pre t, tokenizeAll input = pre ++ [t] ∧ t.type = .EOF ∧
        ∀ t' ∈ pre, t'.type ≠ .EOF) ∧
    (∀ l : Lexer, isWhitespaceChar l.ch = false →
      l.ch ∉ (['=', '+', '|', '*', '{', '}', ':', '/', '#', '-'] : List Char) →
      l.ch ≠ nulChar → isLetter l.ch = false →
      (nextToken l).1 = { type := .ILLEGAL,
                          literal := String.mk [l.ch],
                          line := l.line,
                          position := (l.linePosition : Int) }) :=
  ⟨tokenizeAll_ends_eof,
   fun l h1 h2 h3 h4 => by rw [nextToken_unrecognized l h1 h2 h3 h4]⟩

/-- Witness for C8 on `"a*"` and on a lexer state positioned at the
unrecognized character `?`. -/
theorem c8_witness :
    (∃ pre t, tokenizeAll "a*" = pre ++ [t] ∧ t.type = .EOF ∧
      ∀ t' ∈ pre, t'.type ≠ .EOF) ∧
    (nextToken { ch := '?', rest := [], line := 1, linePosition := 1 }).1 =
      { type := .ILLEGAL, literal := String.mk ['?'], line := 1, position := 1 } :=
  ⟨c8_tokenization_total.1 "a*",
   c8_tokenization_total.2 { ch := '?', rest := [], line := 1, linePosition := 1 }
     (by decide) (by decide) (by decide) (by decide)⟩

/-!  ## Sorting stability of the generator output (C4) -/

/-- Sorting by name is insensitive to the input order as long as the
names are pairwise distinct. -/
theorem sortDefinitions_perm_eq (defs₁ defs₂ : List Definition)
    (hperm : defs₁.Perm defs₂)
    (hnodup : (defs₁.map Definition.name).Nodup) :
    sortDefinitions defs₁ = sortDefinitions defs₂ := by
  have hperm₁ : (sortDefinitions defs₁).Perm defs₁ :=
    @List.perm_insertionSort Definition (fun a b => a.name ≤ b.name) defNameLeDec defs₁
  have hperm₂ : (sortDefinitions defs₂).Perm defs₂ :=
    @List.perm_insertionSort Definition (fun a b => a.name ≤ b.name) defNameLeDec defs₂
  have hsorted₁ : (sortDefinitions defs₁).Pairwise (fun a b => a.name ≤ b.name) :=
    @List.sorted_insertionSort Definition (fun a b => a.name ≤ b.name) defNameLeDec
      ⟨fun a b => le_total a.name b.name⟩ ⟨fun _ _ _ hab hbc => le_trans hab hbc⟩ defs₁
  have hsorted₂ : (sortDefinitions defs₂).Pairwise (fun a b => a.name ≤ b.name) :=
    @List.sorted_insertionSort Definition (fun a b => a.name ≤ b.name) defNameLeDec
      ⟨fun a b => le_total a.name b.name⟩ ⟨fun _ _ _ hab hbc => le_trans hab hbc⟩ defs₂
  have hpermS : (sortDefinitions defs₁).Perm (sortDefinitions defs₂) :=
    (hperm₁.trans hperm).trans hperm₂.symm
  -- distinct names hold in both sorted lists
  have hne₁ : (sortDefinitions defs₁).Pairwise (fun a b => a.name ≠ b.name) :=
    (List.pairwise_map.mp hnodup).perm hperm₁.symm
      (fun {a b} (h : a.name ≠ b.name) => h.symm)
  have hne₂ : (sortDefinitions defs₂).Pairwise (fun a b => a.name ≠ b.name) :=
    hne₁.perm hpermS (fun {a b} (h : a.name ≠ b.name) => h.symm)
  -- upgrade sortedness to the strict name order
  have hstrict₁ : (sortDefinitions defs₁).Pairwise (fun a b => a.name < b.name) :=
    (hsorted₁.and hne₁).imp (fun h => lt_of_le_of_ne h.1 h.2)
  have hstrict₂ : (sortDefinitions defs₂).Pairwise (fun a b => a.name < b.name) :=
    (hsorted₂.and hne₂).imp (fun h => lt_of_le_of_ne h.1 h.2)
  haveI : IsAntisymm Definition (fun a b => a.name < b.name) :=
    ⟨fun a b h₁ h₂ => absurd h₂ (lt_asymm h₁)⟩
  exact List.eq_of_perm_of_sorted hpermS hstrict₁ hstrict₂

/-- C4 counterexample: the two documents contain the same set of
definitions in different source orders, both compile, and the generated
texts differ byte-wise: the shared package name is taken from the first
definition of the *unsorted* input (`a` vs `b`). -/
theorem c4_counterexample_order_dependence :
    generate (fun s => .ok s) "definition a/x {}\ndefinition b/y {}" =
      .ok { text := "package a\ntype x\ntype y", err := none } ∧
    generate (fun s => .ok s) "definition b/y {}\ndefinition a/x {}" =
      .ok { text := "package b\ntype x\ntype y", err := none } ∧
    generate (fun s => .ok s) "definition a/x {}\ndefinition b/y {}" ≠
      generate (fun s => .ok s) "definition b/y {}\ndefinition a/x {}" := by
  refine ⟨by decide, by decide, by decide⟩

/-- C4 as amended: for definition lists that are permutations of each
other, have pairwise-distinct names, and are generated under the same
effective package name (the name is chosen from the first definition
*before* sorting, so reorderings that change it change the output), the
generated source text is byte-identical: definitions are sorted by name
ascending before rendering. -/
theorem c4_sorted_output_stable :
    ∀ (fmtSource : String → Except String String) (pkg : String)
      (defs₁ defs₂ : List Definition),
      defs₁.Perm defs₂ →
      (defs₁.map Definition.name).Nodup →
      generateCode fmtSource pkg defs₁ = generateCode fmtSource pkg defs₂ := by
  intro fmtSource pkg defs₁ defs₂ hperm hnodup
  unfold generateCode
  rw [sortDefinitions_perm_eq defs₁ defs₂ hperm hnodup]

/-- Witness for C4's amended statement on a two-element permutation. -/
theorem c4_witness :
    generateCode (fun s => .ok s) "authz"
        [{ name := "b", package := "authz", relations := [], permissions := [] },
         { name := "a", package := "authz", relations := [], permissions := [] }] =
      generateCode (fun s => .ok s) "authz"
        [{ name := "a", package := "authz", relations := [], permissions := [] },
         { name := "b", package := "authz", relations := [], permissions := [] }] :=
  c4_sorted_output_stable (fun s => .ok s) "authz" _ _ (by decide) (by decide)

/-!  ## The parser never consumes WILDCARD or MINUS tokens (C10)

Every token the parser advances past goes through `consume expected`
for an `expected` kind drawn from the grammar, and neither `WILDCARD`
nor `MINUS` ever occurs as an `expected` kind, so a successful parse
leaves any such token unconsumed — and `ParseDefinitions` only succeeds
once `peek` is EOF, which in a lexer-produced stream lies after every
other token. -/

/-- `rest` is a suffix of `toks` and no skipped token is a `WILDCARD`
or `MINUS`. -/
def NoBadBetween (toks rest : List Token) : Prop :=
  ∃ pre, toks = pre ++ rest ∧ ∀ t ∈ pre, t.type ≠ .WILDCARD ∧ t.type ≠ .MINUS

theorem noBad_refl (toks : List Token) : NoBadBetween toks toks :=
  ⟨[], rfl, by simp⟩

theorem noBad_trans {t1 t2 t3 : List Token}
    (h12 : NoBadBetween t1 t2) (h23 : NoBadBetween t2 t3) : NoBadBetween t1 t3 := by
  obtain ⟨p1, he1, hp1⟩ := h12
  obtain ⟨p2, he2, hp2⟩ := h23
  refine ⟨p1 ++ p2, by rw [he1, he2, List.append_assoc], ?_⟩
  intro t ht
  rcases List.mem_append.mp ht with h | h
  · exact hp1 t h
  · exact hp2 t h

theorem consume_noBad {expected : TokenType} {toks rest : List Token} {tok : Token}
    (hexp : expected ≠ .WILDCARD ∧ expected ≠ .MINUS)
    (h : consume expected toks = .ok (tok, rest)) : NoBadBetween toks rest := by
  rw [consume] at h
  by_cases hc : (peekT toks).type = expected
  · rw [if_pos hc] at h
    cases toks with
    | nil =>
      cases h
      exact noBad_refl []
    | cons t ts =>
      cases h
      refine ⟨[t], by simp, ?_⟩
      intro t' ht'
      rcases List.mem_singleton.mp ht' with rfl
      rw [show t'.type = expected from hc]
      exact hexp
  · rw [if_neg hc] at h
    cases h

theorem parseSingleRelation_noBad {toks rest : List Token} {x : RelationExpressionNode}
    (h : parseSingleRelation toks = .ok (x, rest)) : NoBadBetween toks rest := by
  rw [parseSingleRelation] at h
  split at h
  · cases h
  · rename_i identTok t1 hc1
    have hb1 : NoBadBetween toks t1 := consume_noBad (by decide) hc1
    split at h
    · cases h
    · rename_i relType t4 heq2
      have hb2 : NoBadBetween t1 t4 := by
        split at heq2
        · split at heq2
          · cases heq2
          · rename_i fst2 t2 hcs
            split at heq2
            · cases heq2
            · rename_i nameTok t3 hci
              cases heq2
              exact noBad_trans (consume_noBad (by decide) hcs)
                (consume_noBad (by decide) hci)
        · cases heq2
          exact noBad_refl _
      have hb3 : NoBadBetween t4 rest := by
        split at h
        · split at h
          · cases h
          · rename_i fst5 t5 hch
            split at h
            · cases h
            · rename_i fragTok t6 hcif
              cases h
              exact noBad_trans (consume_noBad (by decide) hch)
                (consume_noBad (by decide) hcif)
        · cases h
          exact noBad_refl _
      exact noBad_trans hb1 (noBad_trans hb2 hb3)

theorem parseRelationExpressionLoopF_noBad :
    ∀ (fuel : Nat) (left : RelationExpressionNode) (toks rest : List Token)
      (x : RelationExpressionNode),
      parseRelationExpressionLoopF fuel left toks = .ok (x, rest) →
      NoBadBetween toks rest := by
  intro fuel
  induction fuel with
  | zero => intro left toks rest x h; cases h
  | succ f ih =>
    intro left toks rest x h
    rw [parseRelationExpressionLoopF] at h
    split at h
    · split at h
      · cases h
      · rename_i fst1 t1 hcp
        split at h
        · cases h
        · rename_i right t2 hps
          exact noBad_trans (consume_noBad (by decide) hcp)
            (noBad_trans (parseSingleRelation_noBad hps) (ih _ _ _ _ h))
    · cases h
      exact noBad_refl _

theorem parseRelationExpression_noBad {toks rest : List Token}
    {x : RelationExpressionNode}
    (h : parseRelationExpression toks = .ok (x, rest)) : NoBadBetween toks rest := by
  rw [parseRelationExpression] at h
  split at h
  · cases h
  · rename_i left t1 hps
    exact noBad_trans (parseSingleRelation_noBad hps)
      (parseRelationExpressionLoopF_noBad _ _ _ _ _ h)

theorem parseRelation_noBad {toks rest : List Token} {x : RelationNode}
    (h : parseRelation toks = .ok (x, rest)) : NoBadBetween toks rest := by
  rw [parseRelation] at h
  split at h
  · cases h
  rename_i tokR t1 hc1
  split at h
  · cases h
  rename_i nameTok t2 hc2
  split at h
  · cases h
  rename_i tokC t3 hc3
  split at h
  · cases h
  rename_i expr t4 hre
  cases h
  exact noBad_trans (consume_noBad (by decide) hc1)
    (noBad_trans (consume_noBad (by decide) hc2)
      (noBad_trans (consume_noBad (by decide) hc3)
        (parseRelationExpression_noBad hre)))

theorem parseIdentifierChainLoopF_noBad :
    ∀ (fuel : Nat) (left : PermissionExpressionNode) (toks rest : List Token)
      (x : PermissionExpressionNode),
      parseIdentifierChainLoopF fuel left toks = .ok (x, rest) →
      NoBadBetween toks rest := by
  intro fuel
  induction fuel with
  | zero => intro left toks rest x h; cases h
  | succ f ih =>
    intro left toks rest x h
    rw [parseIdentifierChainLoopF] at h
    split at h
    · split at h
      · cases h
      · rename_i opTok t1 hca
        split at h
        · cases h
        · rename_i rightTok t2 hci
          exact noBad_trans (consume_noBad (by decide) hca)
            (noBad_trans (consume_noBad (by decide) hci) (ih _ _ _ _ h))
    · cases h
      exact noBad_refl _

theorem parseIdentifierChain_noBad {toks rest : List Token}
    {x : PermissionExpressionNode}
    (h : parseIdentifierChain toks = .ok (x, rest)) : NoBadBetween toks rest := by
  rw [parseIdentifierChain] at h
  split at h
  · cases h
  · rename_i identTok t1 hc1
    exact noBad_trans (consume_noBad (by decide) hc1)
      (parseIdentifierChainLoopF_noBad _ _ _ _ _ h)

theorem parseAdditiveExpressionLoopF_noBad :
    ∀ (fuel : Nat) (left : PermissionExpressionNode) (toks rest : List Token)
      (x : PermissionExpressionNode),
      parseAdditiveExpressionLoopF fuel left toks = .ok (x, rest) →
      NoBadBetween toks rest := by
  intro fuel
  induction fuel with
  | zero => intro left toks rest x h; cases h
  | succ f ih =>
    intro left toks rest x h
    rw [parseAdditiveExpressionLoopF] at h
    split at h
    · split at h
      · cases h
      · rename_i opTok t1 hcp
        split at h
        · cases h
        · rename_i right t2 hpr
          rw [parsePrimaryExpression] at hpr
          exact noBad_trans (consume_noBad (by decide) hcp)
            (noBad_trans (parseIdentifierChain_noBad hpr) (ih _ _ _ _ h))
    · cases h
      exact noBad_refl _

theorem parsePermissionExpression_noBad {toks rest : List Token}
    {x : PermissionExpressionNode}
    (h : parsePermissionExpression toks = .ok (x, rest)) : NoBadBetween toks rest := by
  rw [parsePermissionExpression, parseAdditiveExpression] at h
  split at h
  · cases h
  · rename_i left t1 hpr
    rw [parsePrimaryExpression] at hpr
    exact noBad_trans (parseIdentifierChain_noBad hpr)
      (parseAdditiveExpressionLoopF_noBad _ _ _ _ _ h)

theorem parsePermission_noBad {toks rest : List Token} {x : PermissionNode}
    (h : parsePermission toks = .ok (x, rest)) : NoBadBetween toks rest := by
  rw [parsePermission] at h
  split at h
  · cases h
  rename_i tokP t1 hc1
  split at h
  · cases h
  rename_i nameTok t2 hc2
  split at h
  · cases h
  rename_i tokE t3 hc3
  split at h
  · cases h
  rename_i expr t4 hpe
  cases h
  exact noBad_trans (consume_noBad (by decide) hc1)
    (noBad_trans (consume_noBad (by decide) hc2)
      (noBad_trans (consume_noBad (by decide) hc3)
        (parsePermissionExpression_noBad hpe)))

theorem parseDefinitionBodyF_noBad :
    ∀ (fuel : Nat) (rels : List RelationNode) (perms : List PermissionNode)
      (toks rest : List Token) (x : List RelationNode × List PermissionNode),
      parseDefinitionBodyF fuel rels perms toks = .ok (x, rest) →
      NoBadBetween toks rest := by
  intro fuel
  induction fuel with
  | zero => intro rels perms toks rest x h; cases h
  | succ f ih =>
    intro rels perms toks rest x h
    rw [parseDefinitionBodyF] at h
    split at h
    · split at h
      · cases h
      · rename_i rel t1 hpr
        exact noBad_trans (parseRelation_noBad hpr) (ih _ _ _ _ _ h)
    · split at h
      · split at h
        · cases h
        · rename_i perm t1 hpp
          exact noBad_trans (parsePermission_noBad hpp) (ih _ _ _ _ _ h)
      · cases h
        exact noBad_refl _

theorem parseDefinitionRest_noBad {objectType : ObjectType} {toks rest : List Token}
    {x : DefinitionNode}
    (h : parseDefinitionRest objectType toks = .ok (x, rest)) :
    NoBadBetween toks rest := by
  rw [parseDefinitionRest] at h
  split at h
  · cases h
  rename_i tokL t1 hc1
  split at h
  · cases h
  rename_i body t2 hb
  split at h
  · cases h
  rename_i tokR t3 hc3
  cases h
  exact noBad_trans (consume_noBad (by decide) hc1)
    (noBad_trans (parseDefinitionBodyF_noBad _ _ _ _ _ _ hb)
      (consume_noBad (by decide) hc3))

theorem parseDefinition_noBad {toks rest : List Token} {x : DefinitionNode}
    (h : parseDefinition toks = .ok (x, rest)) : NoBadBetween toks rest := by
  rw [parseDefinition] at h
  split at h
  · cases h
  rename_i tokD t1 hc1
  split at h
  · cases h
  rename_i firstTok t2 hc2
  have hb12 : NoBadBetween toks t2 :=
    noBad_trans (consume_noBad (by decide) hc1) (consume_noBad (by decide) hc2)
  split at h
  · -- prefixed object type
    split at h
    · cases h
    rename_i tokS t3 hc3
    split at h
    · cases h
    rename_i nameTok t4 hc4
    exact noBad_trans hb12
      (noBad_trans (consume_noBad (by decide) hc3)
        (noBad_trans (consume_noBad (by decide) hc4) (parseDefinitionRest_noBad h)))
  · split at h
    · exact noBad_trans hb12 (parseDefinitionRest_noBad h)
    · cases h

theorem parseDefinitionsLoopF_noBad :
    ∀ (fuel : Nat) (acc : List DefinitionNode) (toks : List Token)
      (defs : List DefinitionNode) (rest : List Token),
      parseDefinitionsLoopF fuel acc toks = .ok (defs, rest) →
      NoBadBetween toks rest ∧ (peekT rest).type = .EOF := by
  intro fuel
  induction fuel with
  | zero => intro acc toks defs rest h; cases h
  | succ f ih =>
    intro acc toks defs rest h
    rw [parseDefinitionsLoopF] at h
    split at h
    · rename_i he
      cases h
      exact ⟨noBad_refl _, he⟩
    · rename_i hne
      split at h
      · cases h
      · split at h
        · cases h
        · rename_i d t1 hpd
          obtain ⟨hb, heof⟩ := ih _ _ _ _ h
          exact ⟨noBad_trans (parseDefinition_noBad hpd) hb, heof⟩

/-- A successful `ParseDefinitions` run consumes no `WILDCARD` or
`MINUS` token and stops at a token of kind EOF. -/
theorem parseDefinitions_noBad {toks : List Token} {defs : List DefinitionNode}
    (h : parseDefinitions toks = .ok defs) :
    ∃ rest, NoBadBetween toks rest ∧ (peekT rest).type = .EOF := by
  rw [parseDefinitions] at h
  cases hL : parseDefinitionsLoopF (toks.length + 1) [] toks with
  | error e => rw [hL] at h; cases h
  | ok p =>
    obtain ⟨ds, rest⟩ := p
    exact ⟨rest, parseDefinitionsLoopF_noBad _ _ _ _ _ hL⟩

/-- In a list that ends with its only EOF token, a suffix headed by an
EOF token is exactly that final singleton. -/
theorem eof_suffix_unique {p pre rs : List Token} {r te : Token}
    (heq : p ++ r :: rs = pre ++ [te]) (hr : r.type = .EOF)
    (hpre : ∀ t' ∈ pre, t'.type ≠ .EOF) : r = te ∧ rs = [] := by
  rcases List.append_eq_append_iff.mp heq with ⟨a, ha, hb⟩ | ⟨c, hc, hd⟩
  · cases a with
    | nil =>
      simp at hb
      exact ⟨hb.1, hb.2⟩
    | cons a0 as =>
      exfalso
      injection hb with hra hrs
      refine hpre r ?_ hr
      rw [ha, hra]
      simp
  · cases c with
    | nil =>
      simp at hd
      exact ⟨hd.1.symm, hd.2⟩
    | cons c0 cs =>
      exfalso
      have hlen := congrArg List.length hd
      simp at hlen

/-- C10: no successful parse ever consumes a `WILDCARD` (`*`) or lone
`MINUS` (`-`) token: whenever the lexer's token stream for an input
contains a token of either type, `ParseDefinitions` returns an error, so
such schema documents are always rejected even though the lexer
recognizes the characters as tokens. -/
theorem c10_wildcard_minus_rejected :
    ∀ (input : String) (t : Token), t ∈ tokenizeAll input →
      t.type = .WILDCARD ∨ t.type = .MINUS →
      ∃ e, parseDefinitions (tokenizeAll input) = .error e := by
  intro input t hmem hbad
  cases hres : parseDefinitions (tokenizeAll input) with
  | error e => exact ⟨e, rfl⟩
  | ok defs =>
    exfalso
    obtain ⟨rest, ⟨p, hsplit, hp⟩, heof⟩ := parseDefinitions_noBad hres
    obtain ⟨pre, te, hl, hte, hpre⟩ := tokenizeAll_ends_eof input
    have htbad : t.type ≠ .EOF := by
      rcases hbad with hb | hb <;> rw [hb] <;> decide
    rw [hsplit] at hmem
    rcases List.mem_append.mp hmem with hmp | hmr
    · rcases hbad with hb | hb
      · exact (hp t hmp).1 hb
      · exact (hp t hmp).2 hb
    · cases hrest : rest with
      | nil =>
        rw [hrest] at hmr
        simp at hmr
      | cons r rs =>
        rw [hrest] at hmr heof hsplit
        have hreq : r.type = .EOF := heof
        have hcomb : p ++ r :: rs = pre ++ [te] := hsplit.symm.trans hl
        obtain ⟨hrte, hrs⟩ := eof_suffix_unique hcomb hreq hpre
        rw [hrs] at hmr
        rcases List.mem_cons.mp hmr with rfl | hmem2
        · exact htbad hreq
        · simp at hmem2

/-- Witness for C10 on the input `*`. -/
theorem c10_witness :
    ∃ e, parseDefinitions (tokenizeAll "*") = .error e :=
  c10_wildcard_minus_rejected "*"
    { type := .WILDCARD, literal := "*", line := 1, position := 1 }
    (by decide) (Or.inl rfl)

/-- C9 (failing input for the position-tracking claim): on input
`"ab\n"`, the identifier token for `ab` — which begins at line 1,
column 1 — is recorded with `Line = 2` and `Position = -2`, because
`readIdentifier` consumes the terminating newline's line/column update
before the token's coordinates are computed. -/
theorem c9_lexer_position_bug :
    tokenizeAll "ab\n" =
      [{ type := .IDENTIFIER, literal := "ab", line := 2, position := -2 },
       { type := .EOF, literal := "", line := 2, position := 1 }] := by
  decide

end Authzgen


namespace Authzgen

/-!  ## Lexer tokens are well formed (toward C5) -/

theorem readIdentifierLoopF_not (l : Lexer) (h : isIdentChar l.ch = false) :
    ∀ (fuel : Nat) (acc : List Char), readIdentifierLoopF fuel l acc = (acc.reverse, l) := by
  intro fuel acc
  cases fuel <;> simp [readIdentifierLoopF, h]

theorem readIdentifierLoopF_chars :
    ∀ (fuel : Nat) (l : Lexer) (acc : List Char),
      ∃ new, (readIdentifierLoopF fuel l acc).1 = acc.reverse ++ new ∧
        (∀ c ∈ new, isIdentChar c = true) ∧
        (new = [] ∨ ∃ tl, new = l.ch :: tl) := by
  intro fuel
  induction fuel with
  | zero =>
    intro l acc
    exact ⟨[], by simp [readIdentifierLoopF], by simp, Or.inl rfl⟩
  | succ f ih =>
    intro l acc
    by_cases h : isIdentChar l.ch
    · rw [readIdentifierLoopF, if_pos h]
      obtain ⟨new, h1, h2, h3⟩ := ih (readChar l) (l.ch :: acc)
      refine ⟨l.ch :: new, ?_, ?_, Or.inr ⟨new, rfl⟩⟩
      · rw [h1]; simp
      · intro c hc
        rcases List.mem_cons.mp hc with rfl | hc
        · exact h
        · exact h2 c hc
    · rw [readIdentifierLoopF, if_neg h]
      exact ⟨[], by simp, by simp, Or.inl rfl⟩

theorem readIdentifier_spec (l : Lexer) (h : isLetter l.ch = true) :
    ∃ new, (readIdentifier l).1 = String.mk (l.ch :: new) ∧
      ∀ c ∈ new, isIdentChar c = true := by
  rw [readIdentifier, readIdentifierLoopF,
    if_pos (show isIdentChar l.ch = true from by simp [isIdentChar, h])]
  obtain ⟨new, h1, h2, _⟩ := readIdentifierLoopF_chars (measureOf l) (readChar l) [l.ch]
  refine ⟨new, ?_, h2⟩
  rcases hlp : readIdentifierLoopF (measureOf l) (readChar l) [l.ch] with ⟨cs, l2⟩
  rw [hlp] at h1
  simp at h1
  simp [hlp, h1]

theorem lookupIdent_not_op (s : String) :
    lookupIdent s ≠ .PLUS ∧ lookupIdent s ≠ .MINUS_ARROW := by
  rw [lookupIdent]
  split_ifs <;> exact ⟨by decide, by decide⟩

theorem readChar_ch (l : Lexer) : (readChar l).ch = peekChar l := by
  cases hr : l.rest with
  | nil => simp +decide [readChar, peekChar, hr]
  | cons c r => by_cases hc : c = '\n' <;> simp [readChar, peekChar, hr, hc]

theorem nextTokenF_wf :
    ∀ (fuel : Nat) (l₀ : Lexer), TokenWF (nextTokenF fuel l₀).1 := by
  have triv : ∀ (tt : TokenType) (s : String) (ln : Nat) (p : Int),
      tt ≠ .IDENTIFIER → tt ≠ .PLUS → tt ≠ .MINUS_ARROW →
      TokenWF { type := tt, literal := s, line := ln, position := p } :=
    fun tt s ln p hni hnp hna =>
      ⟨fun h => absurd h hni, fun h => absurd h hnp, fun h => absurd h hna⟩
  intro fuel
  induction fuel with
  | zero =>
    intro l₀
    exact triv _ _ _ _ (by decide) (by decide) (by decide)
  | succ f ih =>
    intro l₀
    simp only [nextTokenF]
    generalize hgen : skipComments (skipWhitespace l₀) = l
    by_cases h1 : l.ch = '='
    · rw [if_pos h1]; exact triv _ _ _ _ (by decide) (by decide) (by decide)
    rw [if_neg h1]
    by_cases h2 : l.ch = '+'
    · rw [if_pos h2]
      refine ⟨?_, ?_, ?_⟩
      · intro h; cases h
      · intro _
        show (charToken .PLUS l).literal = "+"
        rw [charToken, h2]
      · intro h; cases h
    rw [if_neg h2]
    by_cases h3 : l.ch = '|'
    · rw [if_pos h3]; exact triv _ _ _ _ (by decide) (by decide) (by decide)
    rw [if_neg h3]
    by_cases h4 : l.ch = '*'
    · rw [if_pos h4]; exact triv _ _ _ _ (by decide) (by decide) (by decide)
    rw [if_neg h4]
    by_cases h5 : l.ch = '{'
    · rw [if_pos h5]; exact triv _ _ _ _ (by decide) (by decide) (by decide)
    rw [if_neg h5]
    by_cases h6 : l.ch = '}'
    · rw [if_pos h6]; exact triv _ _ _ _ (by decide) (by decide) (by decide)
    rw [if_neg h6]
    by_cases h7 : l.ch = ':'
    · rw [if_pos h7]; exact triv _ _ _ _ (by decide) (by decide) (by decide)
    rw [if_neg h7]
    by_cases h8 : l.ch = '/'
    · rw [if_pos h8]
      by_cases h8p : peekChar l = '/'
      · rw [if_pos h8p]; exact ih _
      · rw [if_neg h8p]; exact triv _ _ _ _ (by decide) (by decide) (by decide)
    rw [if_neg h8]
    by_cases h9 : l.ch = '#'
    · rw [if_pos h9]; exact triv _ _ _ _ (by decide) (by decide) (by decide)
    rw [if_neg h9]
    by_cases h10 : l.ch = '-'
    · rw [if_pos h10]
      by_cases h10p : peekChar l = '>'
      · rw [if_pos h10p]
        refine ⟨?_, ?_, ?_⟩
        · intro h; cases h
        · intro h; cases h
        · intro _
          show String.mk [l.ch, (readChar l).ch] = "->"
          rw [readChar_ch, h10p, h10]
      · rw [if_neg h10p]; exact triv _ _ _ _ (by decide) (by decide) (by decide)
    rw [if_neg h10]
    by_cases h11 : l.ch = nulChar
    · rw [if_pos h11]; exact triv _ _ _ _ (by decide) (by decide) (by decide)
    rw [if_neg h11]
    by_cases h12 : isLetter l.ch = true
    · rw [if_pos h12]
      obtain ⟨new, hl1, hl2⟩ := readIdentifier_spec l h12
      rcases hri : readIdentifier l with ⟨lit, l2⟩
      rw [hri] at hl1
      simp at hl1
      refine ⟨fun hid => ?_, fun hop => ?_, fun hop => ?_⟩
      · show validIdent lit = true
        subst hl1
        have hidlit : lookupIdent (String.mk (l.ch :: new)) = .IDENTIFIER := hid
        simp [validIdent, h12, List.all_eq_true, hidlit]
        exact hl2
      · exact absurd hop (lookupIdent_not_op lit).1
      · exact absurd hop (lookupIdent_not_op lit).2
    · rw [if_neg h12]
      exact triv _ _ _ _ (by decide) (by decide) (by decide)

theorem nextToken_wf (l : Lexer) : TokenWF (nextToken l).1 :=
  nextTokenF_wf _ l

theorem tokenizeAllF_wf :
    ∀ (fuel : Nat) (l : Lexer) (t : Token), t ∈ tokenizeAllF fuel l → TokenWF t := by
  intro fuel
  induction fuel with
  | zero => intro l t ht; simp [tokenizeAllF] at ht
  | succ f ih =>
    intro l t ht
    rcases hnt : nextToken l with ⟨tok, l2⟩
    have hred : tokenizeAllF (f + 1) l =
        if tok.type = .EOF then [tok] else tok :: tokenizeAllF f l2 := by
      rw [tokenizeAllF, hnt]
    rw [hred] at ht
    have htokwf : TokenWF tok := by
      have := nextToken_wf l
      rw [hnt] at this
      exact this
    by_cases he : tok.type = .EOF
    · rw [if_pos he] at ht
      rcases List.mem_singleton.mp ht with rfl
      exact htokwf
    · rw [if_neg he] at ht
      rcases List.mem_cons.mp ht with rfl | hmem
      · exact htokwf
      · exact ih l2 t hmem

theorem tokenizeAll_wf (input : String) : ∀ t ∈ tokenizeAll input, TokenWF t :=
  tokenizeAllF_wf _ _

end Authzgen

namespace Authzgen

/-!  ## Shape of parser-produced permission expressions (toward C5) -/

theorem consume_ok_cons {expected : TokenType} {toks rest : List Token} {tok : Token}
    (hne : expected ≠ .EOF) (h : consume expected toks = .ok (tok, rest)) :
    toks = tok :: rest ∧ tok.type = expected := by
  rw [consume] at h
  by_cases hc : (peekT toks).type = expected
  · rw [if_pos hc] at h
    cases toks with
    | nil => exact absurd hc.symm hne
    | cons t ts =>
      cases h
      exact ⟨rfl, hc⟩
  · rw [if_neg hc] at h
    cases h

theorem parseIdentifierChainLoopF_shape :
    ∀ (fuel : Nat) (left : PermissionExpressionNode) (toks rest : List Token)
      (x : PermissionExpressionNode),
      (∀ t ∈ toks, TokenWF t) → GoodArrow left →
      parseIdentifierChainLoopF fuel left toks = .ok (x, rest) → GoodArrow x := by
  intro fuel
  induction fuel with
  | zero => intro left toks rest x _ _ h; cases h
  | succ f ih =>
    intro left toks rest x hwf hleft h
    rw [parseIdentifierChainLoopF] at h
    split at h
    · split at h
      · cases h
      · rename_i opTok t1 hca
        split at h
        · cases h
        · rename_i rightTok t2 hci
          obtain ⟨htoks, htype⟩ := consume_ok_cons (by decide) hca
          obtain ⟨ht1, htype2⟩ := consume_ok_cons (by decide) hci
          have hopwf : TokenWF opTok := hwf opTok (by rw [htoks]; simp)
          have hrwf : TokenWF rightTok := hwf rightTok (by rw [htoks, ht1]; simp)
          have hoplit : opTok.literal = "->" := hopwf.2.2 htype
          have hrlit : validIdent rightTok.literal = true := hrwf.1 htype2
          have hwf2 : ∀ t ∈ t2, TokenWF t := by
            intro t ht
            exact hwf t (by rw [htoks, ht1]; simp [ht])
          refine ih _ _ _ _ hwf2 ?_ h
          rw [hoplit]
          exact GoodArrow.arrow left rightTok.literal hleft hrlit
    · cases h
      exact hleft

theorem parseIdentifierChain_shape {toks rest : List Token}
    {x : PermissionExpressionNode}
    (hwf : ∀ t ∈ toks, TokenWF t)
    (h : parseIdentifierChain toks = .ok (x, rest)) : GoodArrow x := by
  rw [parseIdentifierChain] at h
  split at h
  · cases h
  · rename_i identTok t1 hc1
    obtain ⟨htoks, htype⟩ := consume_ok_cons (by decide) hc1
    have hv : validIdent identTok.literal = true :=
      (hwf identTok (by rw [htoks]; simp)).1 htype
    exact parseIdentifierChainLoopF_shape _ _ _ _ _
      (fun t ht => hwf t (by rw [htoks]; simp [ht]))
      (GoodArrow.ident _ hv) h

theorem parseAdditiveExpressionLoopF_shape :
    ∀ (fuel : Nat) (left : PermissionExpressionNode) (toks rest : List Token)
      (x : PermissionExpressionNode),
      (∀ t ∈ toks, TokenWF t) → GoodPlus left →
      parseAdditiveExpressionLoopF fuel left toks = .ok (x, rest) → GoodPlus x := by
  intro fuel
  induction fuel with
  | zero => intro left toks rest x _ _ h; cases h
  | succ f ih =>
    intro left toks rest x hwf hleft h
    rw [parseAdditiveExpressionLoopF] at h
    split at h
    · split at h
      · cases h
      · rename_i opTok t1 hcp
        split at h
        · cases h
        · rename_i right t2 hpr
          obtain ⟨htoks, htype⟩ := consume_ok_cons (by decide) hcp
          have hopwf : TokenWF opTok := hwf opTok (by rw [htoks]; simp)
          have hoplit : opTok.literal = "+" := hopwf.2.1 htype
          have hwf1 : ∀ t ∈ t1, TokenWF t := by
            intro t ht
            exact hwf t (by rw [htoks]; simp [ht])
          rw [parsePrimaryExpression] at hpr
          have hright : GoodArrow right := parseIdentifierChain_shape hwf1 hpr
          have hwf2 : ∀ t ∈ t2, TokenWF t := by
            obtain ⟨pre, happ, _⟩ := parseIdentifierChain_noBad hpr
            intro t ht
            exact hwf1 t (by rw [happ]; simp [ht])
          refine ih _ _ _ _ hwf2 ?_ h
          rw [hoplit]
          exact GoodPlus.plus left right hleft hright
    · cases h
      exact hleft

theorem parsePermissionExpression_shape {toks rest : List Token}
    {x : PermissionExpressionNode}
    (hwf : ∀ t ∈ toks, TokenWF t)
    (h : parsePermissionExpression toks = .ok (x, rest)) : GoodPlus x := by
  rw [parsePermissionExpression, parseAdditiveExpression] at h
  split at h
  · cases h
  · rename_i left t1 hpr
    rw [parsePrimaryExpression] at hpr
    have hleft : GoodArrow left := parseIdentifierChain_shape hwf hpr
    have hwf1 : ∀ t ∈ t1, TokenWF t := by
      obtain ⟨pre, happ, _⟩ := parseIdentifierChain_noBad hpr
      intro t ht
      exact hwf t (by rw [happ]; simp [ht])
    exact parseAdditiveExpressionLoopF_shape _ _ _ _ _ hwf1 (GoodPlus.base left hleft) h

end Authzgen

namespace Authzgen

/-!  ## Serialization of good chains into space-separated words (C5) -/

theorem toList_append (s t : String) : (s ++ t).toList = s.toList ++ t.toList := by
  simp [String.toList, String.data_append]

theorem validIdent_toList_ne_nil {s : String} (h : validIdent s = true) :
    s.toList ≠ [] := by
  intro hnil
  have hnil2 : s.data = [] := hnil
  simp [validIdent, String.toList, hnil2] at h

theorem wordText_ne_nil {w : LexWord} (h : WordOK w) : wordText w ≠ [] := by
  cases w with
  | identW s => exact validIdent_toList_ne_nil h
  | plusW => simp [wordText]
  | arrowW => simp [wordText]

theorem wordsOfPerm_ne_nil (e : PermissionExpressionNode) : wordsOfPerm e ≠ [] := by
  cases e <;> simp [wordsOfPerm]

theorem textOfWords_cons (w : LexWord) (ws : List LexWord) (h : ws ≠ []) :
    textOfWords (w :: ws) = wordText w ++ ' ' :: textOfWords ws := by
  cases ws with
  | nil => exact absurd rfl h
  | cons w2 ws2 => simp [textOfWords]

theorem textOfWords_append :
    ∀ (ws₁ ws₂ : List LexWord), ws₁ ≠ [] → ws₂ ≠ [] →
      textOfWords (ws₁ ++ ws₂) = textOfWords ws₁ ++ ' ' :: textOfWords ws₂ := by
  intro ws₁
  induction ws₁ with
  | nil => intro ws₂ h₁ h₂; exact absurd rfl h₁
  | cons w ws ih =>
    intro ws₂ h₁ h₂
    cases ws with
    | nil =>
      rw [List.singleton_append, textOfWords_cons w ws₂ h₂]
      rfl
    | cons w2 ws2 =>
      rw [List.cons_append, textOfWords_cons w ((w2 :: ws2) ++ ws₂) (by simp),
        ih ws₂ (by simp) h₂, textOfWords_cons w (w2 :: ws2) (by simp)]
      simp

theorem wordsOfPerm_arrow_eq (a : PermissionExpressionNode) (w : String) :
    wordsOfPerm (.binaryOp "->" a (.identifier w)) =
      wordsOfPerm a ++ .arrowW :: [.identW w] := by
  simp +decide [wordsOfPerm]

theorem wordsOfPerm_plus_eq (p a : PermissionExpressionNode) :
    wordsOfPerm (.binaryOp "+" p a) = wordsOfPerm p ++ .plusW :: wordsOfPerm a := by
  simp [wordsOfPerm]

theorem wordsOfPerm_arrow_ok {e : PermissionExpressionNode} (h : GoodArrow e) :
    ∀ w ∈ wordsOfPerm e, WordOK w := by
  induction h with
  | ident v hv =>
    intro w hw
    simp [wordsOfPerm] at hw
    subst hw
    exact hv
  | arrow a w ha hv ih =>
    intro w2 hw2
    rw [wordsOfPerm_arrow_eq] at hw2
    rcases List.mem_append.mp hw2 with hm | hm
    · exact ih w2 hm
    · rcases List.mem_cons.mp hm with rfl | hm
      · exact trivial
      · rcases List.mem_singleton.mp hm with rfl
        exact hv

theorem wordsOfPerm_plus_ok {e : PermissionExpressionNode} (h : GoodPlus e) :
    ∀ w ∈ wordsOfPerm e, WordOK w := by
  induction h with
  | base a ha => exact wordsOfPerm_arrow_ok ha
  | plus p a hp ha ih =>
    intro w2 hw2
    rw [wordsOfPerm_plus_eq] at hw2
    rcases List.mem_append.mp hw2 with hm | hm
    · exact ih w2 hm
    · rcases List.mem_cons.mp hm with rfl | hm
      · exact trivial
      · exact wordsOfPerm_arrow_ok ha w2 hm

theorem toStr_words_arrow {e : PermissionExpressionNode} (h : GoodArrow e) :
    e.toStr.toList = textOfWords (wordsOfPerm e) := by
  induction h with
  | ident v hv => simp [PermissionExpressionNode.toStr, wordsOfPerm, textOfWords, wordText]
  | arrow a w ha hv ih =>
    rw [wordsOfPerm_arrow_eq,
      textOfWords_append _ _ (wordsOfPerm_ne_nil a) (by simp),
      textOfWords_cons _ _ (by simp)]
    show (a.toStr ++ " " ++ "->" ++ " " ++
      (PermissionExpressionNode.identifier w).toStr).toList = _
    have ih2 : a.toStr.data = textOfWords (wordsOfPerm a) := ih
    simp [toList_append, ih2, PermissionExpressionNode.toStr, wordText, textOfWords]

theorem toStr_words_plus {e : PermissionExpressionNode} (h : GoodPlus e) :
    e.toStr.toList = textOfWords (wordsOfPerm e) := by
  induction h with
  | base a ha => exact toStr_words_arrow ha
  | plus p a hp ha ih =>
    rw [wordsOfPerm_plus_eq,
      textOfWords_append _ _ (wordsOfPerm_ne_nil p) (by simp),
      textOfWords_cons _ _ (wordsOfPerm_ne_nil a)]
    show (p.toStr ++ " " ++ "+" ++ " " ++ a.toStr).toList = _
    have ih2 : p.toStr.data = textOfWords (wordsOfPerm p) := ih
    have ha2 : a.toStr.data = textOfWords (wordsOfPerm a) := toStr_words_arrow ha
    simp [toList_append, ih2, ha2, wordText]

theorem goodArrow_fold {e : PermissionExpressionNode} (h : GoodArrow e) :
    ∃ v tws, e = arrowFold v tws ∧ validIdent v = true ∧
      ∀ w ∈ tws, validIdent w = true := by
  induction h with
  | ident v hv => exact ⟨v, [], rfl, hv, by simp⟩
  | arrow a w ha hv ih =>
    obtain ⟨v, tws, rfl, hvv, htws⟩ := ih
    refine ⟨v, tws ++ [w], ?_, hvv, ?_⟩
    · rw [arrowFold, arrowFold, List.foldl_append]
      rfl
    · intro w2 hw2
      rcases List.mem_append.mp hw2 with hm | hm
      · exact htws w2 hm
      · rcases List.mem_singleton.mp hm with rfl
        exact hv

theorem goodPlus_fold {e : PermissionExpressionNode} (h : GoodPlus e) :
    ∃ v0 tws0 chains, e = plusFold (arrowFold v0 tws0) chains ∧
      validIdent v0 = true ∧ (∀ w ∈ tws0, validIdent w = true) ∧
      ∀ ch ∈ chains, validIdent ch.1 = true ∧ ∀ w ∈ ch.2, validIdent w = true := by
  induction h with
  | base a ha =>
    obtain ⟨v, tws, rfl, h1, h2⟩ := goodArrow_fold ha
    exact ⟨v, tws, [], rfl, h1, h2, by simp⟩
  | plus p a hp ha ih =>
    obtain ⟨v0, tws0, chains, rfl, hv0, htws0, hch⟩ := ih
    obtain ⟨v, tws, rfl, hv, htws⟩ := goodArrow_fold ha
    refine ⟨v0, tws0, chains ++ [(v, tws)], ?_, hv0, htws0, ?_⟩
    · rw [plusFold, plusFold, List.foldl_append]
      rfl
    · intro ch hch2
      rcases List.mem_append.mp hch2 with hm | hm
      · exact hch ch hm
      · rcases List.mem_singleton.mp hm with rfl
        exact ⟨hv, htws⟩

theorem wordsOfPerm_arrowFold (v : String) (tws : List String) :
    wordsOfPerm (arrowFold v tws) =
      .identW v :: tws.flatMap (fun w => [LexWord.arrowW, .identW w]) := by
  have key : ∀ (tws : List String) (init : PermissionExpressionNode),
      wordsOfPerm (tws.foldl (fun acc w => .binaryOp "->" acc (.identifier w)) init) =
        wordsOfPerm init ++ tws.flatMap (fun w => [LexWord.arrowW, .identW w]) := by
    intro tws
    induction tws with
    | nil => intro init; simp
    | cons w tws ih =>
      intro init
      rw [List.foldl_cons, ih, wordsOfPerm_arrow_eq]
      simp
  rw [arrowFold, key]
  simp [wordsOfPerm]

theorem wordsOfPerm_plusFold (a0 : PermissionExpressionNode)
    (chains : List (String × List String)) :
    wordsOfPerm (plusFold a0 chains) =
      wordsOfPerm a0 ++
        chains.flatMap (fun ch => LexWord.plusW :: wordsOfPerm (arrowFold ch.1 ch.2)) := by
  have key : ∀ (chains : List (String × List String)) (init : PermissionExpressionNode),
      wordsOfPerm (chains.foldl
          (fun acc ch => .binaryOp "+" acc (arrowFold ch.1 ch.2)) init) =
        wordsOfPerm init ++
          chains.flatMap (fun ch => LexWord.plusW :: wordsOfPerm (arrowFold ch.1 ch.2)) := by
    intro chains
    induction chains with
    | nil => intro init; simp
    | cons ch chains ih =>
      intro init
      rw [List.foldl_cons, ih, wordsOfPerm_plus_eq]
      simp
  rw [plusFold, key]

end Authzgen

namespace Authzgen

/-!  ## Lexing the serialized words (C5) -/

theorem readChar_at (c : Char) (cs : List Char) (line col : Nat)
    (h : cs.headD nulChar ≠ '\n') :
    readChar (lexerAt c cs line col) =
      lexerAt (cs.headD nulChar) cs.tail line (col + 1) := by
  cases cs with
  | nil => simp +decide [readChar, lexerAt]
  | cons c2 r =>
    simp only [List.headD_cons] at h
    simp [readChar, lexerAt, h]

theorem skipWhitespace_spaced (c : Char) (cs : List Char) (line col : Nat)
    (hc : isWhitespaceChar c = false) :
    skipWhitespace (lexerAt ' ' (c :: cs) line col) = lexerAt c cs line (col + 1) := by
  have hn : (c :: cs).headD nulChar ≠ '\n' := by
    simp only [List.headD_cons]
    exact fun he => absurd (he ▸ hc) (by decide)
  rw [skipWhitespace, skipWhitespaceF,
    if_pos (show isWhitespaceChar (lexerAt ' ' (c :: cs) line col).ch = true from rfl),
    readChar_at ' ' (c :: cs) line col hn]
  simp only [List.headD_cons, List.tail_cons]
  exact skipWhitespaceF_id _ _ hc

theorem skipComments_at (c : Char) (cs : List Char) (line col : Nat)
    (hns : c ≠ '/') : skipComments (lexerAt c cs line col) = lexerAt c cs line col := by
  rw [skipComments]
  exact skipCommentsF_id _ _ (fun hc => hns hc.1)

theorem skip_unspaced (c : Char) (cs : List Char) (line col : Nat)
    (hws : isWhitespaceChar c = false) (hns : c ≠ '/') :
    skipComments (skipWhitespace (lexerAt c cs line col)) = lexerAt c cs line col := by
  rw [skipWhitespace, skipWhitespaceF_id _ _ hws]
  exact skipComments_at _ _ _ _ hns

theorem skip_spaced (c : Char) (cs : List Char) (line col : Nat)
    (hws : isWhitespaceChar c = false) (hns : c ≠ '/') :
    skipComments (skipWhitespace (lexerAt ' ' (c :: cs) line col)) =
      lexerAt c cs line (col + 1) := by
  rw [skipWhitespace_spaced c cs line col hws]
  exact skipComments_at _ _ _ _ hns

theorem readIdentifierLoopF_run :
    ∀ (cs : List Char) (fuel : Nat) (c : Char) (r : List Char) (line col : Nat)
      (acc : List Char),
      cs.length + 1 ≤ fuel →
      isIdentChar c = true → (∀ x ∈ cs, isIdentChar x = true) →
      isIdentChar (r.headD nulChar) = false → r.headD nulChar ≠ '\n' →
      readIdentifierLoopF fuel (lexerAt c (cs ++ r) line col) acc =
        (acc.reverse ++ c :: cs,
         lexerAt (r.headD nulChar) r.tail line (col + cs.length + 1)) := by
  intro cs
  induction cs with
  | nil =>
    intro fuel c r line col acc hfuel hc hcs hrh hrn
    cases fuel with
    | zero => omega
    | succ f =>
      rw [readIdentifierLoopF, if_pos (show isIdentChar (lexerAt c ([] ++ r) line col).ch = true from hc)]
      rw [show (lexerAt c ([] ++ r) line col) = lexerAt c r line col from by simp [lexerAt]]
      rw [readChar_at c r line col hrn]
      rw [readIdentifierLoopF_not _ hrh]
      simp [lexerAt]
  | cons c2 cs2 ih =>
    intro fuel c r line col acc hfuel hc hcs hrh hrn
    cases fuel with
    | zero => simp at hfuel
    | succ f =>
      rw [readIdentifierLoopF, if_pos (show isIdentChar (lexerAt c ((c2 :: cs2) ++ r) line col).ch = true from hc)]
      have hc2 : isIdentChar c2 = true := hcs c2 (by simp)
      have hc2n : c2 ≠ '\n' := char_ne_of_class hc2 (by decide)
      rw [show ((c2 :: cs2) ++ r : List Char) = c2 :: (cs2 ++ r) from rfl,
        readChar_at c (c2 :: (cs2 ++ r)) line col (by simpa using hc2n)]
      simp only [List.headD_cons, List.tail_cons]
      rw [show (lexerAt c (c2 :: (cs2 ++ r)) line col).ch = c from rfl]
      rw [ih f c2 r line (col + 1) (c :: acc)
        (by simp at hfuel ⊢; omega) hc2 (fun x hx => hcs x (by simp [hx])) hrh hrn]
      simp [lexerAt]
      omega

end Authzgen

namespace Authzgen

theorem lexerAt_ch (c : Char) (cs : List Char) (line col : Nat) :
    (lexerAt c cs line col).ch = c := rfl

theorem lexerAt_rest (c : Char) (cs : List Char) (line col : Nat) :
    (lexerAt c cs line col).rest = cs := rfl

theorem lexerAt_line (c : Char) (cs : List Char) (line col : Nat) :
    (lexerAt c cs line col).line = line := rfl

theorem lexerAt_linePosition (c : Char) (cs : List Char) (line col : Nat) :
    (lexerAt c cs line col).linePosition = col := rfl

theorem validIdent_spec {s : String} (h : validIdent s = true) :
    ∃ c cs, s.toList = c :: cs ∧ isLetter c = true ∧
      (∀ x ∈ cs, isIdentChar x = true) ∧ lookupIdent s = .IDENTIFIER := by
  rw [validIdent] at h
  split at h
  · cases h
  · rename_i c cs hs
    simp at h
    exact ⟨c, cs, hs, h.1.1, fun x hx => h.1.2 x hx, h.2⟩

/-- One identifier word, lexed from a state whose whitespace/comment skip
lands at the word's first character. -/
theorem nextTokenF_core_ident (fuel : Nat) (l₀ : Lexer) (c : Char) (cs r : List Char)
    (line col : Nat)
    (hskip : skipComments (skipWhitespace l₀) = lexerAt c (cs ++ r) line col)
    (hc : isLetter c = true) (hcs : ∀ x ∈ cs, isIdentChar x = true)
    (hrh : isIdentChar (r.headD nulChar) = false) (hrn : r.headD nulChar ≠ '\n') :
    nextTokenF (fuel + 1) l₀ =
      ({ type := lookupIdent (String.mk (c :: cs)), literal := String.mk (c :: cs),
         line := line,
         position := ((col + cs.length + 1 : Nat) : Int) -
           ((String.mk (c :: cs)).length : Int) },
       lexerAt (r.headD nulChar) r.tail line (col + cs.length + 1)) := by
  have hcid : isIdentChar c = true := by simp [isIdentChar, hc]
  have h1 : c ≠ '=' := char_ne_of_class hc (by decide)
  have h2 : c ≠ '+' := char_ne_of_class hc (by decide)
  have h3 : c ≠ '|' := char_ne_of_class hc (by decide)
  have h4 : c ≠ '*' := char_ne_of_class hc (by decide)
  have h5 : c ≠ '\x7b' := char_ne_of_class hc (by decide)
  have h6 : c ≠ '\x7d' := char_ne_of_class hc (by decide)
  have h7 : c ≠ ':' := char_ne_of_class hc (by decide)
  have h8 : c ≠ '/' := char_ne_of_class hc (by decide)
  have h9 : c ≠ '#' := char_ne_of_class hc (by decide)
  have h10 : c ≠ '-' := char_ne_of_class hc (by decide)
  have hnul : c ≠ nulChar := char_ne_of_class hc (by decide)
  have hb : cs.length + 1 ≤ measureOf (lexerAt c (cs ++ r) line col) + 1 := by
    simp [measureOf, lexerAt, hnul]
    omega
  have hri : readIdentifier (lexerAt c (cs ++ r) line col) =
      (String.mk (c :: cs), lexerAt (r.headD nulChar) r.tail line (col + cs.length + 1)) := by
    rw [readIdentifier,
      readIdentifierLoopF_run cs (measureOf (lexerAt c (cs ++ r) line col) + 1)
        c r line col [] hb hcid hcs hrh hrn]
    simp
  rw [nextTokenF, hskip]
  simp [h1, h2, h3, h4, h5, h6, h7, h8, h9, h10, hnul, hc, hri,
    lexerAt_ch, lexerAt_line, lexerAt_linePosition]

/-- One `+` word. -/
theorem nextTokenF_core_plus (fuel : Nat) (l₀ : Lexer) (r : List Char) (line col : Nat)
    (hskip : skipComments (skipWhitespace l₀) = lexerAt '+' r line col)
    (hrn : r.headD nulChar ≠ '\n') :
    nextTokenF (fuel + 1) l₀ =
      ({ type := .PLUS, literal := String.mk ['+'], line := line,
         position := (col : Int) },
       lexerAt (r.headD nulChar) r.tail line (col + 1)) := by
  have hrc : readChar (lexerAt '+' r line col) =
      lexerAt (r.headD nulChar) r.tail line (col + 1) :=
    readChar_at '+' r line col hrn
  rw [nextTokenF, hskip]
  simp +decide [hrc, charToken, lexerAt_ch, lexerAt_line, lexerAt_linePosition]

/-- One `->` word. -/
theorem nextTokenF_core_arrow (fuel : Nat) (l₀ : Lexer) (r : List Char) (line col : Nat)
    (hskip : skipComments (skipWhitespace l₀) = lexerAt '-' ('>' :: r) line col)
    (hrn : r.headD nulChar ≠ '\n') :
    nextTokenF (fuel + 1) l₀ =
      ({ type := .MINUS_ARROW, literal := String.mk ['-', '>'], line := line,
         position := ((col + 1 : Nat) : Int) - 1 },
       lexerAt (r.headD nulChar) r.tail line (col + 2)) := by
  have hpk : peekChar (lexerAt '-' ('>' :: r) line col) = '>' := rfl
  have hrc1 : readChar (lexerAt '-' ('>' :: r) line col) = lexerAt '>' r line (col + 1) := by
    rw [readChar_at '-' ('>' :: r) line col (by simp)]
    simp
  have hrc2 : readChar (lexerAt '>' r line (col + 1)) =
      lexerAt (r.headD nulChar) r.tail line (col + 1 + 1) :=
    readChar_at '>' r line (col + 1) hrn
  rw [nextTokenF, hskip]
  simp +decide [hpk, hrc1, hrc2, charToken, lexerAt_ch, lexerAt_line, lexerAt_linePosition]

/-- `NextToken` at the end of input produces the EOF token. -/
theorem nextToken_at_end (line col : Nat) :
    nextToken (lexerAt nulChar [] line col) =
      ({ type := .EOF, literal := "", line := line, position := (col : Int) },
       lexerAt nulChar [] line (col + 1)) := rfl

/-- `TokenizeAll`'s loop at the end of input yields exactly the EOF
token. -/
theorem tokenizeAllF_at_end (f : Nat) (line col : Nat) (h : 1 ≤ f) :
    (tokenizeAllF f (lexerAt nulChar [] line col)).map typeLit = [(.EOF, "")] := by
  cases f with
  | zero => omega
  | succ f2 =>
    rw [tokenizeAllF, nextToken_at_end line col]
    simp [typeLit]

end Authzgen

namespace Authzgen

/-- Uniform lexing step for one serialized word: the next token's kind and
literal are the word's, and the lexer lands on the first character after
the word. -/
theorem word_step (w : LexWord) (hok : WordOK w) (c : Char) (cs : List Char)
    (hwt : wordText w = c :: cs)
    (fuel : Nat) (l₀ : Lexer) (r : List Char) (line col : Nat)
    (hskip : skipComments (skipWhitespace l₀) = lexerAt c (cs ++ r) line col)
    (hrh : isIdentChar (r.headD nulChar) = false) (hrn : r.headD nulChar ≠ '\n') :
    ∃ tok endcol,
      nextTokenF (fuel + 1) l₀ = (tok, lexerAt (r.headD nulChar) r.tail line endcol) ∧
      typeLit tok = wordPair w := by
  cases w with
  | identW s =>
    obtain ⟨c', cs', hs, hletter, hcs', hlook⟩ := validIdent_spec hok
    simp only [wordText] at hwt
    rw [hwt] at hs
    injection hs with h1 h2
    subst h1
    subst h2
    have hmk : String.mk (c :: cs) = s := by rw [← hwt]; rfl
    refine ⟨_, col + cs.length + 1,
      nextTokenF_core_ident fuel l₀ c cs r line col hskip hletter hcs' hrh hrn, ?_⟩
    simp [typeLit, wordPair, hmk, hlook]
  | plusW =>
    simp only [wordText] at hwt
    injection hwt with h1 h2
    subst h1
    subst h2
    simp only [List.nil_append] at hskip
    exact ⟨_, col + 1, nextTokenF_core_plus fuel l₀ r line col hskip hrn,
      by simp +decide [typeLit, wordPair]⟩
  | arrowW =>
    simp only [wordText] at hwt
    injection hwt with h1 h2
    subst h1
    subst h2
    simp only [List.cons_append, List.nil_append] at hskip
    exact ⟨_, col + 2, nextTokenF_core_arrow fuel l₀ r line col hskip hrn,
      by simp +decide [typeLit, wordPair]⟩

/-- Every serialized word starts with a character that survives the
whitespace/comment skip untouched. -/
theorem wordText_head {w : LexWord} (h : WordOK w) :
    ∃ c cs, wordText w = c :: cs ∧ isWhitespaceChar c = false ∧ c ≠ '/' ∧
      c ≠ '\n' ∧ c ≠ nulChar := by
  cases w with
  | identW s =>
    obtain ⟨c, cs, hs, hletter, _, _⟩ := validIdent_spec h
    have h1 : c ≠ ' ' := char_ne_of_class hletter (by decide)
    have h2 : c ≠ '\t' := char_ne_of_class hletter (by decide)
    have h3 : c ≠ '\n' := char_ne_of_class hletter (by decide)
    have h4 : c ≠ '\r' := char_ne_of_class hletter (by decide)
    refine ⟨c, cs, hs, ?_, char_ne_of_class hletter (by decide), h3,
      char_ne_of_class hletter (by decide)⟩
    simp [isWhitespaceChar, h1, h2, h3, h4]
  | plusW => exact ⟨'+', [], rfl, by decide, by decide, by decide, by decide⟩
  | arrowW => exact ⟨'-', ['>'], rfl, by decide, by decide, by decide, by decide⟩

/-- Each word contributes at least one character to the serialization. -/
theorem length_le_textOfWords :
    ∀ ws : List LexWord, (∀ w ∈ ws, WordOK w) →
      ws.length ≤ (textOfWords ws).length := by
  intro ws
  induction ws with
  | nil => intro _; simp [textOfWords]
  | cons w ws2 ih =>
    intro hok
    have h1 : 1 ≤ (wordText w).length :=
      List.length_pos.mpr (wordText_ne_nil (hok w (by simp)))
    cases ws2 with
    | nil => simp [textOfWords]; omega
    | cons w2 ws3 =>
      rw [textOfWords_cons w (w2 :: ws3) (by simp)]
      have h2 := ih (fun x hx => hok x (by simp [hx]))
      simp [List.length_append] at h2 ⊢
      omega

/-- A nonempty word list's serialization starts with the head word's
first character. -/
theorem textOfWords_head_ex (w : LexWord) (ws : List LexWord) (c : Char)
    (cs : List Char) (h : wordText w = c :: cs) :
    ∃ tl, textOfWords (w :: ws) = c :: tl := by
  cases ws with
  | nil => exact ⟨cs, by simp [textOfWords, h]⟩
  | cons w2 ws2 =>
    exact ⟨cs ++ ' ' :: textOfWords (w2 :: ws2),
      by rw [textOfWords_cons w _ (by simp), h]; simp⟩

/-- Lexing the space-joined serialization of well-formed words produces
exactly the words' tokens followed by one EOF token. -/
theorem tokenizeAllF_words :
    ∀ (ws : List LexWord) (fuel : Nat) (l₀ : Lexer) (line col : Nat),
      (∀ w ∈ ws, WordOK w) → ws ≠ [] → ws.length + 1 ≤ fuel →
      skipComments (skipWhitespace l₀) =
        lexerAt ((textOfWords ws).headD nulChar) (textOfWords ws).tail line col →
      (tokenizeAllF fuel l₀).map typeLit = ws.map wordPair ++ [(.EOF, "")] := by
  intro ws
  induction ws with
  | nil => intro _ _ _ _ _ hne _ _; exact absurd rfl hne
  | cons w ws2 ih =>
    intro fuel l₀ line col hok hne hfuel hskip
    obtain ⟨c, cs, hwt, hcw, hcslash, hcnl, hcnul⟩ := wordText_head (hok w (by simp))
    cases fuel with
    | zero => omega
    | succ f =>
      cases ws2 with
      | nil =>
        have htext : textOfWords [w] = c :: cs := by simp [textOfWords, hwt]
        rw [htext] at hskip
        simp only [List.headD_cons, List.tail_cons] at hskip
        have hskip2 : skipComments (skipWhitespace l₀) = lexerAt c (cs ++ []) line col := by
          simpa using hskip
        obtain ⟨tok, endcol, hstep, htok⟩ :=
          word_step w (hok w (by simp)) c cs hwt (measureOf l₀) l₀ [] line col hskip2
            (by decide) (by decide)
        simp only [List.headD_nil, List.tail_nil] at hstep
        have hnt : nextToken l₀ = (tok, lexerAt nulChar [] line endcol) := by
          rw [nextToken]; exact hstep
        have htne : tok.type ≠ .EOF := by
          have hty : tok.type = (wordPair w).1 := congrArg Prod.fst htok
          rw [hty]; cases w <;> simp [wordPair]
        rw [tokenizeAllF, hnt]
        simp only [htne, if_false, ite_false, if_neg htne]
        rw [List.map_cons, tokenizeAllF_at_end f line endcol (by simp at hfuel; omega), htok]
        simp [wordPair]
      | cons w2 ws3 =>
        have htext : textOfWords (w :: w2 :: ws3) =
            c :: (cs ++ ' ' :: textOfWords (w2 :: ws3)) := by
          rw [textOfWords_cons w _ (by simp), hwt]
          simp
        rw [htext] at hskip
        simp only [List.headD_cons, List.tail_cons] at hskip
        obtain ⟨tok, endcol, hstep, htok⟩ :=
          word_step w (hok w (by simp)) c cs hwt (measureOf l₀) l₀
            (' ' :: textOfWords (w2 :: ws3)) line col hskip
            (by simp +decide) (by simp +decide)
        simp only [List.headD_cons, List.tail_cons] at hstep
        have hnt : nextToken l₀ =
            (tok, lexerAt ' ' (textOfWords (w2 :: ws3)) line endcol) := by
          rw [nextToken]; exact hstep
        have htne : tok.type ≠ .EOF := by
          have hty : tok.type = (wordPair w).1 := congrArg Prod.fst htok
          rw [hty]; cases w <;> simp [wordPair]
        obtain ⟨c2, cs2, hwt2, hcw2, hcslash2, _, _⟩ := wordText_head (hok w2 (by simp))
        obtain ⟨tl, htl⟩ := textOfWords_head_ex w2 ws3 c2 cs2 hwt2
        have hrec := ih f (lexerAt ' ' (textOfWords (w2 :: ws3)) line endcol) line
          (endcol + 1) (fun x hx => hok x (by simp [hx])) (by simp)
          (by simp at hfuel ⊢; omega)
          (by rw [htl]
              simp only [List.headD_cons, List.tail_cons]
              exact skip_spaced c2 tl line endcol hcw2 hcslash2)
        rw [tokenizeAllF, hnt]
        simp only [htne, if_false, ite_false, if_neg htne]
        rw [List.map_cons, hrec, htok]
        simp

/-- Tokenizing the full serialization of a nonempty well-formed word list
yields the words' `(type, literal)` pairs followed by one EOF pair. -/
theorem tokenizeAll_words (ws : List LexWord) (hok : ∀ w ∈ ws, WordOK w)
    (hne : ws ≠ []) :
    (tokenizeAll (String.mk (textOfWords ws))).map typeLit =
      ws.map wordPair ++ [(.EOF, "")] := by
  obtain ⟨w, ws2, rfl⟩ : ∃ w ws2, ws = w :: ws2 := by
    cases ws with
    | nil => exact absurd rfl hne
    | cons w ws2 => exact ⟨w, ws2, rfl⟩
  obtain ⟨c, cs, hwt, hcw, hcslash, hcnl, hcnul⟩ := wordText_head (hok w (by simp))
  obtain ⟨tl, htl⟩ := textOfWords_head_ex w ws2 c cs hwt
  have hnew : newLexer (String.mk (c :: tl)) = lexerAt c tl 1 1 := by
    have h0 : newLexer (String.mk (c :: tl)) = readChar (lexerAt nulChar (c :: tl) 1 0) := rfl
    rw [h0, readChar_at nulChar (c :: tl) 1 0 (by simpa using hcnl)]
    simp
  have hlen := length_le_textOfWords (w :: ws2) hok
  rw [htl] at hlen
  rw [tokenizeAll, htl, hnew]
  apply tokenizeAllF_words (w :: ws2) _ _ 1 1 hok (by simp)
  · simp only [List.length_cons] at hlen
    simp [measureOf, lexerAt, hcnul]
    omega
  · rw [htl]
    simp only [List.headD_cons, List.tail_cons]
    exact skip_unspaced c tl 1 1 hcw hcslash

end Authzgen

namespace Authzgen

/-!  ## Parsing back the serialized token stream (C5) -/

theorem typeLit_eq_iff {t : Token} {ty : TokenType} {s : String} :
    typeLit t = (ty, s) ↔ t.type = ty ∧ t.literal = s := by
  simp [typeLit, Prod.ext_iff]

theorem map_wordPair_arrowFold (v : String) (tws : List String) :
    (wordsOfPerm (arrowFold v tws)).map wordPair = arrowChainPairs v tws := by
  rw [wordsOfPerm_arrowFold]
  simp [arrowChainPairs, wordPair, List.map_flatMap]

theorem map_wordPair_plusFold (v0 : String) (tws0 : List String)
    (chains : List (String × List String)) :
    (wordsOfPerm (plusFold (arrowFold v0 tws0) chains)).map wordPair =
      arrowChainPairs v0 tws0 ++
        chains.flatMap (fun ch => ((.PLUS, "+") : TokenType × String) :: chainPairs ch) := by
  rw [wordsOfPerm_plusFold]
  simp [List.map_flatMap, map_wordPair_arrowFold, chainPairs, wordPair]

theorem length_flatMap_arrowPairs (tws : List String) :
    (tws.flatMap (fun w =>
      [((.MINUS_ARROW, "->") : TokenType × String), (.IDENTIFIER, w)])).length =
      2 * tws.length := by
  induction tws with
  | nil => simp
  | cons w tws ih => simp [ih]; omega

/-- The `->` loop, driven by the token kinds and literals alone. -/
theorem parseIdentifierChainLoopF_back :
    ∀ (tws : List String) (fuel : Nat) (left : PermissionExpressionNode)
      (mid rest : List Token),
      mid.map typeLit = tws.flatMap (fun w =>
        [((.MINUS_ARROW, "->") : TokenType × String), (.IDENTIFIER, w)]) →
      2 * tws.length < fuel →
      (peekT rest).type ≠ .MINUS_ARROW →
      parseIdentifierChainLoopF fuel left (mid ++ rest) =
        .ok (tws.foldl (fun acc w => .binaryOp "->" acc (.identifier w)) left, rest) := by
  intro tws
  induction tws with
  | nil =>
    intro fuel left mid rest hmap hfuel hrest
    have hmid : mid = [] := by simpa using hmap
    subst hmid
    cases fuel with
    | zero => omega
    | succ f => simpa using parseIdentifierChainLoopF_stop f left rest hrest
  | cons w tws ih =>
    intro fuel left mid rest hmap hfuel hrest
    cases mid with
    | nil => simp at hmap
    | cons t1 mid1 =>
      cases mid1 with
      | nil => simp at hmap
      | cons t2 mid2 =>
        simp only [List.map_cons, List.flatMap_cons, List.cons_append,
          List.nil_append, List.cons.injEq] at hmap
        obtain ⟨h1, h2, hmap2⟩ := hmap
        obtain ⟨h1t, h1l⟩ := typeLit_eq_iff.mp h1
        obtain ⟨h2t, h2l⟩ := typeLit_eq_iff.mp h2
        cases fuel with
        | zero => omega
        | succ f =>
          rw [List.cons_append, List.cons_append,
            parseIdentifierChainLoopF_succ_arrow f left _ (by simp [peekT_cons, h1t]),
            List.tail_cons, consume_ok .IDENTIFIER t2 _ h2t]
          have hih := ih f (.binaryOp "->" left (.identifier w)) mid2 rest hmap2
            (by simp at hfuel ⊢; omega) hrest
          simpa [peekT_cons, h1l, h2l] using hih

/-- `parseIdentifierChain`, driven by the token kinds and literals
alone: it rebuilds exactly the left arrow fold. -/
theorem parseIdentifierChain_back (v : String) (tws : List String) (t0 : Token)
    (mid rest : List Token)
    (h0 : typeLit t0 = (.IDENTIFIER, v))
    (hmid : mid.map typeLit = tws.flatMap (fun w =>
      [((.MINUS_ARROW, "->") : TokenType × String), (.IDENTIFIER, w)]))
    (hrest : (peekT rest).type ≠ .MINUS_ARROW) :
    parseIdentifierChain (t0 :: (mid ++ rest)) = .ok (arrowFold v tws, rest) := by
  obtain ⟨h0t, h0l⟩ := typeLit_eq_iff.mp h0
  have hlen : mid.length = 2 * tws.length := by
    have h := congrArg List.length hmid
    rw [List.length_map, length_flatMap_arrowPairs] at h
    exact h
  rw [parseIdentifierChain, consume_ok .IDENTIFIER t0 _ h0t]
  show parseIdentifierChainLoopF ((mid ++ rest).length + 1)
      (.identifier t0.literal) (mid ++ rest) = .ok (arrowFold v tws, rest)
  have hloop := parseIdentifierChainLoopF_back tws ((mid ++ rest).length + 1)
    (.identifier t0.literal) mid rest hmid (by simp [hlen]; omega) hrest
  rw [hloop, h0l]
  rfl

/-- A token list mirroring a `+`-chain continuation never starts with an
arrow. -/
theorem peek_chains_not_arrow (midB rest : List Token)
    (chains : List (String × List String))
    (h : midB.map typeLit = chains.flatMap (fun ch =>
      ((.PLUS, "+") : TokenType × String) :: chainPairs ch))
    (hr : (peekT rest).type ≠ .MINUS_ARROW) :
    (peekT (midB ++ rest)).type ≠ .MINUS_ARROW := by
  cases chains with
  | nil =>
    have hmid : midB = [] := by simpa using h
    subst hmid
    simpa using hr
  | cons ch chs =>
    cases midB with
    | nil => simp at h
    | cons t mB =>
      simp only [List.map_cons, List.flatMap_cons, List.cons_append,
        List.cons.injEq] at h
      obtain ⟨ht, _⟩ := typeLit_eq_iff.mp h.1
      simp [peekT_cons, ht]

/-- The `+` loop, driven by the token kinds and literals alone. -/
theorem parseAdditiveExpressionLoopF_back :
    ∀ (chains : List (String × List String)) (fuel : Nat)
      (left : PermissionExpressionNode) (mid rest : List Token),
      mid.map typeLit = chains.flatMap (fun ch =>
        ((.PLUS, "+") : TokenType × String) :: chainPairs ch) →
      mid.length < fuel →
      (peekT rest).type ≠ .PLUS → (peekT rest).type ≠ .MINUS_ARROW →
      parseAdditiveExpressionLoopF fuel left (mid ++ rest) =
        .ok (plusFold left chains, rest) := by
  intro chains
  induction chains with
  | nil =>
    intro fuel left mid rest hmap hfuel hp ha
    have hmid : mid = [] := by simpa using hmap
    subst hmid
    cases fuel with
    | zero => omega
    | succ f => simp [parseAdditiveExpressionLoopF, hp, plusFold]
  | cons ch chains ih =>
    intro fuel left mid rest hmap hfuel hp ha
    rcases ch with ⟨v, tws⟩
    cases mid with
    | nil => simp at hmap
    | cons tp mid1 =>
      simp only [List.map_cons, List.flatMap_cons, List.cons_append,
        List.cons.injEq, chainPairs, arrowChainPairs] at hmap
      obtain ⟨hpl, hmap1⟩ := hmap
      obtain ⟨hpt, hplit⟩ := typeLit_eq_iff.mp hpl
      cases mid1 with
      | nil => simp at hmap1
      | cons ti mid2 =>
        simp only [List.map_cons, List.cons_append, List.cons.injEq] at hmap1
        obtain ⟨hil, hmap2⟩ := hmap1
        obtain ⟨midA, midB, rfl, hA, hB⟩ := List.map_eq_append_iff.mp hmap2
        cases fuel with
        | zero => omega
        | succ f =>
          have hpk : (peekT (midB ++ rest)).type ≠ .MINUS_ARROW :=
            peek_chains_not_arrow midB rest chains hB ha
          rw [List.cons_append,
            parseAdditiveExpressionLoopF_succ_plus f left _ (by simp [peekT_cons, hpt]),
            List.tail_cons]
          rw [show (ti :: (midA ++ midB)) ++ rest = ti :: (midA ++ (midB ++ rest)) from by
            simp]
          rw [show parsePrimaryExpression (ti :: (midA ++ (midB ++ rest))) =
                .ok (arrowFold v tws, midB ++ rest) from by
              rw [parsePrimaryExpression]
              exact parseIdentifierChain_back v tws ti midA (midB ++ rest) hil hA hpk]
          show parseAdditiveExpressionLoopF f
              (.binaryOp tp.literal left (arrowFold v tws)) (midB ++ rest) =
            .ok (plusFold left ((v, tws) :: chains), rest)
          rw [hplit]
          have hih := ih f (.binaryOp "+" left (arrowFold v tws)) midB rest hB
            (by simp at hfuel ⊢; omega) hp ha
          rw [hih]
          rfl

/-- `parsePermissionExpression`, driven by the token kinds and literals
alone: the token stream of a serialized good expression parses back to
exactly that expression, leaving only the EOF token. -/
theorem parsePermissionExpression_back (v0 : String) (tws0 : List String)
    (chains : List (String × List String)) (toks : List Token)
    (hmap : toks.map typeLit = arrowChainPairs v0 tws0 ++
      chains.flatMap (fun ch => ((.PLUS, "+") : TokenType × String) :: chainPairs ch) ++
      [((.EOF, "") : TokenType × String)]) :
    ∃ rest, parsePermissionExpression toks =
      .ok (plusFold (arrowFold v0 tws0) chains, rest) ∧
      rest.map typeLit = [((.EOF, "") : TokenType × String)] := by
  rw [show arrowChainPairs v0 tws0 ++
      chains.flatMap (fun ch => ((.PLUS, "+") : TokenType × String) :: chainPairs ch) ++
      [((.EOF, "") : TokenType × String)] =
      ((.IDENTIFIER, v0) : TokenType × String) ::
        (tws0.flatMap (fun w =>
          [((.MINUS_ARROW, "->") : TokenType × String), (.IDENTIFIER, w)]) ++
         (chains.flatMap (fun ch =>
            ((.PLUS, "+") : TokenType × String) :: chainPairs ch) ++
          [((.EOF, "") : TokenType × String)])) from by
    simp [arrowChainPairs]] at hmap
  cases toks with
  | nil => simp at hmap
  | cons t0 toks1 =>
    simp only [List.map_cons, List.cons.injEq] at hmap
    obtain ⟨h0, hmap1⟩ := hmap
    obtain ⟨midA, toks2, rfl, hA, hmap2⟩ := List.map_eq_append_iff.mp hmap1
    obtain ⟨midB, rest, rfl, hB, hrest⟩ := List.map_eq_append_iff.mp hmap2
    obtain ⟨te, hrest2⟩ : ∃ te, rest = [te] := by
      cases rest with
      | nil => simp at hrest
      | cons te r2 =>
        cases r2 with
        | nil => exact ⟨te, rfl⟩
        | cons _ _ => simp at hrest
    have hte : typeLit te = (.EOF, "") := by
      rw [hrest2] at hrest
      simpa using hrest
    obtain ⟨htet, _⟩ := typeLit_eq_iff.mp hte
    have hperest : (peekT rest).type = .EOF := by rw [hrest2, peekT_cons, htet]
    have hpk : (peekT (midB ++ rest)).type ≠ .MINUS_ARROW :=
      peek_chains_not_arrow midB rest chains hB (by simp +decide [hperest])
    refine ⟨rest, ?_, hrest⟩
    rw [parsePermissionExpression, parseAdditiveExpression, parsePrimaryExpression]
    rw [show t0 :: (midA ++ (midB ++ rest)) = t0 :: (midA ++ (midB ++ rest)) from rfl]
    rw [parseIdentifierChain_back v0 tws0 t0 midA (midB ++ rest) h0 hA hpk]
    show parseAdditiveExpressionLoopF ((midB ++ rest).length + 1)
        (arrowFold v0 tws0) (midB ++ rest) =
      .ok (plusFold (arrowFold v0 tws0) chains, rest)
    exact parseAdditiveExpressionLoopF_back chains ((midB ++ rest).length + 1)
      (arrowFold v0 tws0) midB rest hB (by simp; omega) (by simp +decide [hperest])
      (by simp +decide [hperest])

end Authzgen

namespace Authzgen

/-- C5: for every permission expression tree the parser produces from a
lexed input, serializing it to its expression text (`String()`) and
re-parsing that text as a permission expression yields the same tree —
the identical operator sequence and operand order — with only the EOF
token left unconsumed. -/
theorem c5_permission_roundtrip (input : String) (e : PermissionExpressionNode)
    (rest : List Token)
    (h : parsePermissionExpression (tokenizeAll input) = .ok (e, rest)) :
    ∃ rest2, parsePermissionExpression (tokenizeAll e.toStr) = .ok (e, rest2) ∧
      rest2.map typeLit = [((.EOF, "") : TokenType × String)] := by
  have hwf : ∀ t ∈ tokenizeAll input, TokenWF t := tokenizeAll_wf input
  have hgood : GoodPlus e := parsePermissionExpression_shape hwf h
  obtain ⟨v0, tws0, chains, he, hv0, htws0, hch⟩ := goodPlus_fold hgood
  have hws : ∀ w ∈ wordsOfPerm e, WordOK w := wordsOfPerm_plus_ok hgood
  have hstr : e.toStr = String.mk (textOfWords (wordsOfPerm e)) :=
    congrArg String.mk (toStr_words_plus hgood)
  have hlex := tokenizeAll_words (wordsOfPerm e) hws (wordsOfPerm_ne_nil e)
  rw [← hstr] at hlex
  have hmap : (tokenizeAll e.toStr).map typeLit =
      arrowChainPairs v0 tws0 ++
        chains.flatMap (fun ch => ((.PLUS, "+") : TokenType × String) :: chainPairs ch) ++
        [((.EOF, "") : TokenType × String)] := by
    rw [hlex, he, map_wordPair_plusFold]
  obtain ⟨rest2, hp, hr⟩ := parsePermissionExpression_back v0 tws0 chains _ hmap
  refine ⟨rest2, ?_, hr⟩
  rw [hp, ← he]

/-- Witness for C5: the tree parsed from `a + b -> c` serializes and
re-parses to itself. -/
theorem c5_witness :
    ∃ rest2, parsePermissionExpression
        (tokenizeAll (PermissionExpressionNode.binaryOp "+" (.identifier "a")
          (.binaryOp "->" (.identifier "b") (.identifier "c"))).toStr) =
      .ok (.binaryOp "+" (.identifier "a")
             (.binaryOp "->" (.identifier "b") (.identifier "c")), rest2) ∧
      rest2.map typeLit = [((.EOF, "") : TokenType × String)] :=
  c5_permission_roundtrip "a + b -> c"
    (.binaryOp "+" (.identifier "a") (.binaryOp "->" (.identifier "b") (.identifier "c")))
    [{ type := .EOF, literal := "", line := 1, position := 11 }] (by decide)

end Authzgen
